import Mathlib

/-!
Verification of the grid-resource / QoS simulation engine (src/app.py).

The Python source is shallowly embedded below.  Numbers are modelled by `ℚ`
(Python ints and floats unified; Python's binary floating point is idealised
to exact rational arithmetic — no claim here depends on float rounding
artefacts).  Python's `random` module is modelled by an explicit stream of
natural numbers (`Rng`): `random.randint`/`random.uniform`/`random.choice`
become functions of that stream whose results always lie in the documented
range of the corresponding Python primitive.  Fallible Python code (raising
`IndexError`, `StopIteration`, `ZeroDivisionError`) is modelled with
`Option`/`Except`.
-/

namespace GridSim

/-- A deterministic source of raw randomness: an infinite stream of naturals
together with a read position.  Models Python's global `random` state. -/
structure Rng where
  seq : ℕ → ℕ
  pos : ℕ

/-- Draw one raw natural from the stream. -/
def Rng.take (r : Rng) : ℕ × Rng :=
  (r.seq r.pos, ⟨r.seq, r.pos + 1⟩)

/-- Model of `random.randint(a, b)`: an integer drawn from `[a, b]`
(both ends included).  For `a ≤ b` the result is always in `[a, b]`. -/
def randint (a b : ℤ) (r : Rng) : ℤ × Rng :=
  let (x, r') := r.take
  (a + (x : ℤ) % (b - a + 1), r')

/-- Model of `random.uniform(a, b)`: a rational in `[a, b]`
(the draw is quantised to steps of `(b-a)/1000`, which is immaterial to
every property proved below: only the range contract of `uniform` is used). -/
def uniformQ (a b : ℚ) (r : Rng) : ℚ × Rng :=
  let (x, r') := r.take
  (a + (b - a) * ((x % 1001 : ℕ) : ℚ) / 1000, r')

/-- Model of `random.choice(l)` for a non-empty list `l`: picks the element
at a drawn index.  `d` is a default that is never reached when `l ≠ []`. -/
def pyChoice {α : Type} (l : List α) (d : α) (r : Rng) : α × Rng :=
  let (x, r') := r.take
  (l.getD (x % l.length) d, r')

/-- Round-half-to-even on rationals: the tie-breaking rule of Python 3's
built-in `round`. -/
def roundHalfEven (q : ℚ) : ℤ :=
  if q - ⌊q⌋ < 1/2 then ⌊q⌋
  else if 1/2 < q - ⌊q⌋ then ⌊q⌋ + 1
  else if Even ⌊q⌋ then ⌊q⌋ else ⌊q⌋ + 1

/-- Model of Python's `round(x, 2)`. -/
def round2 (q : ℚ) : ℚ := (roundHalfEven (q * 100) : ℚ) / 100

/-- Model of Python's `round(x, 3)`. -/
def round3 (q : ℚ) : ℚ := (roundHalfEven (q * 1000) : ℚ) / 1000

/-- Big-endian decimal digit characters of `n` (fuel-driven so that the
kernel can evaluate it).  `decRepr` below models the rendering of a natural
number inside a Python f-string such as `f"Node-{i+1}"`. -/
def decDigitsGo : ℕ → ℕ → List Char
  | 0, _ => []
  | fuel + 1, n =>
    if n < 10 then [Nat.digitChar n]
    else decDigitsGo fuel (n / 10) ++ [Nat.digitChar (n % 10)]

/-- Decimal rendering of a natural number, as an f-string renders it. -/
def decRepr (n : ℕ) : String := ⟨decDigitsGo (n + 1) n⟩

/-- Numeric value of a decimal digit character. -/
def digitVal (c : Char) : ℕ := c.toNat - 48

/-- Value of a big-endian decimal digit string. -/
def digitsVal (l : List Char) : ℕ :=
  l.foldl (fun a c => 10 * a + digitVal c) 0

/-- A grid node (the dict built by `create_nodes`, src/app.py lines 26-35). -/
structure Node where
  id : String
  cpu : ℚ
  memory : ℚ
  bandwidth : ℚ
  reliability : ℚ
  cost : ℚ
  load : ℚ
deriving DecidableEq, Repr

/-- A task (the dict built by `create_tasks`, src/app.py lines 37-43). -/
structure Task where
  id : String
  workload : ℚ
  priority : String
  sla_time : ℚ
deriving DecidableEq, Repr

/-- One node of `create_nodes` (src/app.py lines 27-35): fields are drawn in
source order (CPU, Memory, Bandwidth, Reliability, Cost), `Load` starts at 0,
and the id renders the 1-based index. -/
def create_node (i : ℕ) (r : Rng) : Node × Rng :=
  let (cpu, r1) := randint 2 10 r
  let (mem, r2) := randint 8 32 r1
  let (bw, r3) := randint 50 150 r2
  let (rel, r4) := uniformQ (85/100) (99/100) r3
  let (cost, r5) := uniformQ (1/2) 3 r4
  ({ id := "Node-" ++ decRepr (i + 1), cpu := (cpu : ℚ), memory := (mem : ℚ),
     bandwidth := (bw : ℚ), reliability := round2 rel, cost := round2 cost,
     load := 0 }, r5)

/-- The list comprehension of `create_nodes`, generating indices `i, i+1, ...`
for `m` further nodes. -/
def create_nodes_go (i : ℕ) : ℕ → Rng → List Node × Rng
  | 0, r => ([], r)
  | m + 1, r =>
    let (nd, r') := create_node i r
    let (rest, r'') := create_nodes_go (i + 1) m r'
    (nd :: rest, r'')

/-- `create_nodes(n)` (src/app.py lines 26-35). -/
def create_nodes (n : ℕ) (r : Rng) : List Node × Rng :=
  create_nodes_go 0 n r

/-- One task of `create_tasks` (src/app.py lines 38-43). -/
def create_task (i : ℕ) (r : Rng) : Task × Rng :=
  let (w, r1) := randint 3 10 r
  let (p, r2) := pyChoice ["Low", "Medium", "High"] "" r1
  let (s, r3) := randint 3 9 r2
  ({ id := "Task-" ++ decRepr (i + 1), workload := (w : ℚ), priority := p,
     sla_time := (s : ℚ) }, r3)

/-- The list comprehension of `create_tasks`. -/
def create_tasks_go (i : ℕ) : ℕ → Rng → List Task × Rng
  | 0, r => ([], r)
  | m + 1, r =>
    let (t, r') := create_task i r
    let (rest, r'') := create_tasks_go (i + 1) m r'
    (t :: rest, r'')

/-- `create_tasks(n)` (src/app.py lines 37-43). -/
def create_tasks (n : ℕ) (r : Rng) : List Task × Rng :=
  create_tasks_go 0 n r

/-- Replace the element at index `j` (identity elsewhere): the effect of
mutating one dict held in a Python list. -/
def modifyAt (j : ℕ) (f : Node → Node) : List Node → List Node
  | [] => []
  | n :: ns =>
    match j with
    | 0 => f n :: ns
    | j' + 1 => n :: modifyAt j' f ns

/-- Comparison used to model Python's stable `sorted(l, key=key)`: a stable
sort by `key` is exactly a sort of the index-tagged list by the total order
(key ascending, original index ascending). -/
def keyLex {α : Type} (key : α → ℚ) (a b : ℕ × α) : Bool :=
  decide (key a.2 < key b.2 ∨ (key a.2 = key b.2 ∧ a.1 ≤ b.1))

/-- Model of Python's `sorted(l, key=key)` (stable, ascending). -/
def pySorted {α : Type} (key : α → ℚ) (l : List α) : List α :=
  (l.enum.mergeSort (keyLex key)).map Prod.snd

/-- Comparison modelling Python's `sorted(l, key=key, reverse=True)`:
key descending, ties kept in original order (Python's reverse sort is
stable as well). -/
def keyLexDesc {α : Type} (key : α → ℚ) (a b : ℕ × α) : Bool :=
  decide (key b.2 < key a.2 ∨ (key a.2 = key b.2 ∧ a.1 ≤ b.1))

/-- Model of Python's `sorted(l, key=key, reverse=True)`, keeping the
original index tags. -/
def pySortedDescEnum {α : Type} (key : α → ℚ) (l : List α) : List (ℕ × α) :=
  l.enum.mergeSort (keyLexDesc key)

/-- The assignment loop shared verbatim by `round_robin`,
`shortest_job_first` and `economic` (src/app.py lines 46-71):
`for i, task in enumerate(tasks): node = nodes[i % len(nodes)];
node["Load"] += task["Workload"]; assignments.append((task.id, node.id))`.
The running index starts at `i`.  `nodes[i % len(nodes)]` raises
`ZeroDivisionError` in Python when the pool is empty, modelled by `none`
(the node list's length is invariant across iterations, so the modulus is
the original `len(nodes)` throughout, as in the source). -/
def cycleGo (i : ℕ) (nodes : List Node) :
    List Task → Option (List (String × String) × List Node)
  | [] => some ([], nodes)
  | t :: ts =>
    match nodes[i % nodes.length]? with
    | none => none
    | some nd =>
      match cycleGo (i + 1)
          (modifyAt (i % nodes.length)
            (fun n => { n with load := n.load + t.workload }) nodes) ts with
      | none => none
      | some (asgs, fin) => some ((t.id, nd.id) :: asgs, fin)

/-- `round_robin(nodes, tasks)` (src/app.py lines 46-52).  Returns the
assignment list and the final (load-mutated) node list. -/
def round_robin (nodes : List Node) (tasks : List Task) :
    Option (List (String × String) × List Node) :=
  cycleGo 0 nodes tasks

/-- `shortest_job_first(nodes, tasks)` (src/app.py lines 54-62): sort (a new
list of) tasks by `Workload`, sort (a new list of) nodes by `Load`, then run
the same assignment loop on the sorted lists.  The node sort happens once,
before any load mutation.  (The Python loop indexes with `len(nodes)`, the
original list's length, which equals the sorted list's length.)  The returned
node list is in sorted order; in Python the caller's list aliases the same
mutated dicts in original order. -/
def shortest_job_first (nodes : List Node) (tasks : List Task) :
    Option (List (String × String) × List Node) :=
  cycleGo 0 (pySorted (fun n => n.load) nodes)
    (pySorted (fun t => t.workload) tasks)

/-- `economic(nodes, tasks)` (src/app.py lines 64-71): sort (a new list of)
nodes by `Cost`, iterate tasks in original order through the same loop. -/
def economic (nodes : List Node) (tasks : List Task) :
    Option (List (String × String) × List Node) :=
  cycleGo 0 (pySorted (fun n => n.cost) nodes) tasks

/-- The score `bandwidth * reliability - load` used by `predictive_qos`
(src/app.py line 83). -/
def qosScore (n : Node) : ℚ := n.bandwidth * n.reliability - n.load

/-- The per-node resource fluctuation of `predictive_qos`
(src/app.py lines 79-81): three `random.choice` draws, each clamped. -/
def perturbNode (nd : Node) (r : Rng) : Node × Rng :=
  let (d1, r1) := pyChoice [(-1 : ℚ), 0, 1] 0 r
  let (d2, r2) := pyChoice [(-10 : ℚ), 0, 10] 0 r1
  let (d3, r3) := pyChoice [(-1/100 : ℚ), 0, 1/100] 0 r2
  ({ nd with
      cpu := max 1 (nd.cpu + d1),
      bandwidth := max 10 (nd.bandwidth + d2),
      reliability := max (7/10) (min (99/100) (nd.reliability + d3)) }, r3)

/-- `for node in nodes: ...` perturbation pass (src/app.py lines 77-81). -/
def perturbAll : List Node → Rng → List Node × Rng
  | [], r => ([], r)
  | n :: ns, r =>
    let (n', r') := perturbNode n r
    let (ns', r'') := perturbAll ns r'
    (n' :: ns', r'')

/-- One iteration of the `predictive_qos` task loop (src/app.py lines 76-86):
perturb every node, take `sorted(nodes, key=score, reverse=True)[0]`
(`IndexError`, i.e. `none`, on an empty pool), add the workload to its load,
record `(task.id, node.id)`.  The chosen element is identified by its
position in the (unreordered) node list, which is how the shared dict of the
Python lists is identified here. -/
def predictive_step (nodes : List Node) (t : Task) (r : Rng) :
    Option (List Node × (String × String)) × Rng :=
  let (ns, r') := perturbAll nodes r
  match (pySortedDescEnum qosScore ns).head? with
  | none => (none, r')
  | some (j, nd) =>
    (some (modifyAt j (fun n => { n with load := n.load + t.workload }) ns,
      (t.id, nd.id)), r')

/-- `predictive_qos(nodes, tasks)` (src/app.py lines 73-87). -/
def predictive_qos (nodes : List Node) :
    List Task → Rng → Option (List (String × String) × List Node) × Rng
  | [], r => (some ([], nodes), r)
  | t :: ts, r =>
    match predictive_step nodes t r with
    | (none, r') => (none, r')
    | (some (ns, a), r') =>
      match predictive_qos ns ts r' with
      | (none, r'') => (none, r'')
      | (some (asgs, fin), r'') => (some (a :: asgs, fin), r'')

/-- One row of the `evaluate` results table (src/app.py lines 104-114).
`sla_met` models the `"✅"/"❌"` cell as the Boolean it renders. -/
structure EvalRecord where
  task : String
  node : String
  latency : ℚ
  throughput : ℚ
  reliability : ℚ
  qos_score : ℚ
  exec_time : ℚ
  sla_time : ℚ
  sla_met : Bool
deriving DecidableEq, Repr

/-- `evaluate(assignments, tasks, nodes)` (src/app.py lines 90-115).
`next(... if id matches)` is the first match and raises `StopIteration`
(modelled `none`) when absent.  One uniform draw per record feeds `latency`.
(`10 / bandwidth` and `workload / cpu` use total `ℚ` division; in Python a
zero divisor would raise, but every caller satisfies `bandwidth ≥ 10` and
`cpu ≥ 1`.) -/
def evaluate :
    List (String × String) → List Task → List Node → Rng →
      Option (List EvalRecord) × Rng
  | [], _, _, r => (some [], r)
  | (task_id, node_id) :: rest, tasks, nodes, r =>
    match nodes.find? (fun n => n.id == node_id),
        tasks.find? (fun t => t.id == task_id) with
    | some node, some task =>
      let (u, r1) := uniformQ (1/10) (3/2) r
      let latency := round3 (u * (10 / node.bandwidth))
      let throughput := round2 (node.bandwidth / (task.workload + 1))
      let exec_time := task.workload / node.cpu
      let reliability := node.reliability
      let qos_score := round3 ((throughput * reliability) / (1 + latency))
      let sla_met := decide (exec_time ≤ task.sla_time)
      match evaluate rest tasks nodes r1 with
      | (some recs, r2) =>
        (some ({ task := task_id, node := node_id, latency := latency,
                 throughput := throughput, reliability := reliability,
                 qos_score := qos_score, exec_time := round2 exec_time,
                 sla_time := task.sla_time, sla_met := sla_met } :: recs), r2)
      | (none, r2) => (none, r2)
    | _, _ => (none, r)

/-- How the aggregation of src/app.py lines 147-150 can fail.
`zeroDivision` is Python's `ZeroDivisionError`; `emptyResult` is the
`EmptyResultError` the design documentation posits for an empty record
sequence — the code never raises it. -/
inductive AggError where
  | zeroDivision
  | emptyResult
deriving DecidableEq, Repr

/-- The aggregation of src/app.py lines 147-150:
`sla_success = sum(1 for r in results if r["SLA Met"] == "✅")` and
`avg_qos = sum(r["QoS Score"] for r in results) / len(results)`;
the SLA success rate displayed is `sla_success / len(results)`.
Both divisions are by `len(results)` with no emptiness guard, so an empty
record list is a `ZeroDivisionError`.  Result: (sla success rate, avg QoS). -/
def aggregate (records : List EvalRecord) : Except AggError (ℚ × ℚ) :=
  let sla_success : ℚ := ((records.filter (fun r => r.sla_met)).length : ℚ)
  if records.length = 0 then Except.error AggError.zeroDivision
  else Except.ok (sla_success / (records.length : ℚ),
    ((records.map (fun r => r.qos_score)).sum) / (records.length : ℚ))

/-- The node-state invariant of the specification (§3): nonnegative load,
reliability within its clamp band, CPU and bandwidth at least their clamp
floors. -/
def NodeInv (n : Node) : Prop :=
  0 ≤ n.load ∧ mkRat 7 10 ≤ n.reliability ∧ n.reliability ≤ mkRat 99 100 ∧
    1 ≤ n.cpu ∧ 10 ≤ n.bandwidth

instance (n : Node) : Decidable (NodeInv n) :=
  decidable_of_iff (0 ≤ n.load ∧ mkRat 7 10 ≤ n.reliability ∧
    n.reliability ≤ mkRat 99 100 ∧ 1 ≤ n.cpu ∧ 10 ≤ n.bandwidth) Iff.rfl

/-- Sum of the workloads that the cyclic loop starting at index `i` over a
pool of `k` nodes sends to the node at pool index `j`. -/
def assignedSum (i k j : ℕ) : List Task → ℚ
  | [] => 0
  | t :: ts =>
    (if i % k = j then t.workload else 0) + assignedSum (i + 1) k j ts

/-- Closed form of the assignment list the cyclic loop produces: it is fully
determined by the node ids, the starting index and the task list. -/
def cycleAsgs (ids : List String) (i : ℕ) : List Task → List (String × String)
  | [] => []
  | t :: ts => (t.id, ids.getD (i % ids.length) "") :: cycleAsgs ids (i + 1) ts

/-- Checker for the per-record arithmetic of `evaluate` (src/app.py
lines 96-102): re-resolving the record's ids, the stored throughput is
`round(bandwidth/(workload+1), 2)`, the stored exec time is the rounded
quotient `round(workload/cpu, 2)`, and the SLA flag compares the *unrounded*
quotient `workload/cpu` with the task's SLA time. -/
def recCheck (tasks : List Task) (nodes : List Node) (rec : EvalRecord) :
    Bool :=
  match tasks.find? (fun t => t.id == rec.task),
      nodes.find? (fun n => n.id == rec.node) with
  | some task, some node =>
    decide (rec.throughput = round2 (node.bandwidth / (task.workload + 1)) ∧
      rec.exec_time = round2 (task.workload / node.cpu) ∧
      (rec.sla_met = true ↔ task.workload / node.cpu ≤ task.sla_time))
  | _, _ => false

/-- Checker isolating the SLA decision of `evaluate`: the flag is computed
from the unrounded `workload/cpu`, while the stored exec time is the rounded
value. -/
def slaCheck (tasks : List Task) (nodes : List Node) (rec : EvalRecord) :
    Bool :=
  match tasks.find? (fun t => t.id == rec.task),
      nodes.find? (fun n => n.id == rec.node) with
  | some task, some node =>
    decide ((rec.sla_met = true ↔ task.workload / node.cpu ≤ task.sla_time) ∧
      rec.exec_time = round2 (task.workload / node.cpu))
  | _, _ => false

/-- A fixed raw-randomness stream for concrete runs. -/
def rngZero : Rng := ⟨fun _ => 0, 0⟩

/-- Concrete node builder for the worked examples. -/
def exNode (s : String) (c w : ℚ) : Node :=
  { id := s, cpu := 5, memory := 16, bandwidth := 100,
    reliability := mkRat 9 10, cost := c, load := w }

/-- Concrete task builder for the worked examples. -/
def exTask (s : String) (w q : ℚ) : Task :=
  { id := s, workload := w, priority := "Low", sla_time := q }

/-- The node pool of the spec's economic example: costs 3.0, 0.5, 1.5. -/
def ecoNodes : List Node :=
  [exNode "N1" 3 0, exNode "N2" (1/2) 0, exNode "N3" (3/2) 0]

/-- Five tasks for the economic example. -/
def ecoTasks : List Task :=
  [exTask "T1" 4 5, exTask "T2" 5 5, exTask "T3" 6 5, exTask "T4" 7 5,
   exTask "T5" 8 5]

/-- The node of the spec's evaluator example:
bandwidth 100, reliability 0.9, cpu 5. -/
def evalNode : Node :=
  { id := "Node-1", cpu := 5, memory := 16, bandwidth := 100,
    reliability := 9/10, cost := 1, load := 0 }

/-- The task of the spec's evaluator example: workload 5, SLA time 2. -/
def evalTask : Task :=
  { id := "Task-1", workload := 5, priority := "Low", sla_time := 2 }

/-- A node/task pair on which rounding moves the stored exec time to the
other side of the SLA bound: `501/250 = 2.004 > 2` but
`round(2.004, 2) = 2.0 ≤ 2`. -/
def slaNode : Node :=
  { id := "Node-1", cpu := 250, memory := 16, bandwidth := 100,
    reliability := 9/10, cost := 1, load := 0 }

/-- Task whose unrounded exec time `2.004` exceeds its SLA time `2`. -/
def slaTask : Task :=
  { id := "Task-1", workload := 501, priority := "Low", sla_time := 2 }

/-- The record `evaluate` builds for one assignment `(tid, nid)` resolved to
`task`/`node`, with `u` the uniform draw feeding the latency
(src/app.py lines 96-114). -/
def evalRecordOf (tid nid : String) (task : Task) (node : Node) (u : ℚ) :
    EvalRecord :=
  { task := tid, node := nid,
    latency := round3 (u * (10 / node.bandwidth)),
    throughput := round2 (node.bandwidth / (task.workload + 1)),
    reliability := node.reliability,
    qos_score := round3 ((round2 (node.bandwidth / (task.workload + 1)) *
      node.reliability) / (1 + round3 (u * (10 / node.bandwidth)))),
    exec_time := round2 (task.workload / node.cpu),
    sla_time := task.sla_time,
    sla_met := decide (task.workload / node.cpu ≤ task.sla_time) }

/-- A concrete evaluation record for worked aggregation examples. -/
def exRecord : EvalRecord :=
  { task := "T", node := "N", latency := 0, throughput := 1, reliability := 1,
    qos_score := 1, exec_time := 1, sla_time := 1, sla_met := true }

/-! Basic lemmas about the randomness and rounding models. -/

theorem randint_mem {a b : ℤ} (h : a ≤ b) (r : Rng) :
    a ≤ (randint a b r).1 ∧ (randint a b r).1 ≤ b := by
  unfold randint Rng.take
  have hpos : (0 : ℤ) < b - a + 1 := by omega
  have h1 : 0 ≤ ((r.seq r.pos : ℤ)) % (b - a + 1) :=
    Int.emod_nonneg _ (by omega)
  have h2 : ((r.seq r.pos : ℤ)) % (b - a + 1) < b - a + 1 :=
    Int.emod_lt_of_pos _ hpos
  constructor <;> simp <;> omega

theorem uniformQ_mem {a b : ℚ} (h : a ≤ b) (r : Rng) :
    a ≤ (uniformQ a b r).1 ∧ (uniformQ a b r).1 ≤ b := by
  unfold uniformQ Rng.take
  have h0 : (0 : ℚ) ≤ ((r.seq r.pos % 1001 : ℕ) : ℚ) := by positivity
  have h1 : ((r.seq r.pos % 1001 : ℕ) : ℚ) ≤ 1000 := by
    have : r.seq r.pos % 1001 < 1001 := Nat.mod_lt _ (by omega)
    exact_mod_cast Nat.le_of_lt_succ this
  have hba : (0 : ℚ) ≤ b - a := by linarith
  constructor
  · simp only
    nlinarith
  · simp only
    nlinarith

theorem pyChoice_mem {α : Type} {l : List α} (hl : l ≠ []) (d : α) (r : Rng) :
    (pyChoice l d r).1 ∈ l := by
  unfold pyChoice Rng.take
  have hlen : 0 < l.length := List.length_pos.mpr hl
  have hidx : (r.seq r.pos) % l.length < l.length := Nat.mod_lt _ hlen
  simp only
  rw [List.getD_eq_getElem l d hidx]
  exact List.getElem_mem _

theorem roundHalfEven_le {a : ℤ} {q : ℚ} (h : q ≤ a) : roundHalfEven q ≤ a := by
  unfold roundHalfEven
  have hf : ⌊q⌋ ≤ a := by
    have := Int.floor_le_floor h
    simpa using this
  split
  · exact hf
  · split
    · rename_i h1 h2
      have hlt : (⌊q⌋ : ℚ) < q := by
        push_neg at h1
        linarith
      have : ⌊q⌋ < a := by
        have : (⌊q⌋ : ℚ) < (a : ℚ) := lt_of_lt_of_le hlt h
        exact_mod_cast this
      omega
    · rename_i h1 h2
      push_neg at h1 h2
      have heq : q - ⌊q⌋ = 1/2 := le_antisymm h2 h1
      have hlt : (⌊q⌋ : ℚ) < q := by linarith
      have hfa : ⌊q⌋ < a := by
        have : (⌊q⌋ : ℚ) < (a : ℚ) := lt_of_lt_of_le hlt h
        exact_mod_cast this
      split <;> omega

theorem le_roundHalfEven {a : ℤ} {q : ℚ} (h : (a : ℚ) ≤ q) : a ≤ roundHalfEven q := by
  unfold roundHalfEven
  have hf : a ≤ ⌊q⌋ := Int.le_floor.mpr h
  split
  · exact hf
  · split
    · omega
    · split <;> omega

theorem round2_mem (lo hi : ℤ) (q : ℚ) (h1 : (lo : ℚ)/100 ≤ q)
    (h2 : q ≤ (hi : ℚ)/100) :
    (lo : ℚ)/100 ≤ round2 q ∧ round2 q ≤ (hi : ℚ)/100 := by
  have hl : (lo : ℚ) ≤ q * 100 := by linarith
  have hh : q * 100 ≤ (hi : ℚ) := by linarith
  have hrl : lo ≤ roundHalfEven (q * 100) := le_roundHalfEven hl
  have hrh : roundHalfEven (q * 100) ≤ hi := roundHalfEven_le hh
  unfold round2
  constructor
  · have : (lo : ℚ) ≤ (roundHalfEven (q * 100) : ℚ) := by exact_mod_cast hrl
    linarith
  · have : ((roundHalfEven (q * 100) : ℤ) : ℚ) ≤ (hi : ℚ) := by exact_mod_cast hrh
    linarith

/-! Correctness and injectivity of the decimal rendering. -/

theorem digitVal_digitChar {d : ℕ} (h : d < 10) :
    digitVal (Nat.digitChar d) = d := by
  interval_cases d <;> rfl

theorem digitsVal_append_singleton (l : List Char) (c : Char) :
    digitsVal (l ++ [c]) = 10 * digitsVal l + digitVal c := by
  unfold digitsVal
  rw [List.foldl_append]
  rfl

theorem digitsVal_decDigitsGo :
    ∀ fuel n, n < fuel → digitsVal (decDigitsGo fuel n) = n := by
  intro fuel
  induction fuel with
  | zero => intro n h; omega
  | succ fuel ih =>
    intro n h
    unfold decDigitsGo
    split
    · rename_i h10
      show digitsVal ([] ++ [Nat.digitChar n]) = n
      rw [digitsVal_append_singleton]
      simp [digitsVal, digitVal_digitChar h10]
    · rename_i h10
      push_neg at h10
      have hdiv : n / 10 < n := Nat.div_lt_self (by omega) (by omega)
      rw [digitsVal_append_singleton, ih (n / 10) (by omega),
        digitVal_digitChar (Nat.mod_lt _ (by omega))]
      omega

theorem decRepr_injective : Function.Injective decRepr := by
  intro m n h
  unfold decRepr at h
  have hdata : decDigitsGo (m + 1) m = decDigitsGo (n + 1) n := by
    have := congrArg String.data h
    simpa using this
  have hm := digitsVal_decDigitsGo (m + 1) m (by omega)
  have hn := digitsVal_decDigitsGo (n + 1) n (by omega)
  rw [← hm, ← hn, hdata]

theorem prefixed_decRepr_injective (p : String) :
    Function.Injective (fun n => p ++ decRepr n) := by
  intro m n h
  simp only at h
  have hdata := congrArg String.data h
  simp only [String.data_append] at hdata
  have := List.append_cancel_left hdata
  exact decRepr_injective (by
    unfold decRepr
    exact congrArg String.mk this)

/-! Lemmas about the entity generators. -/

theorem create_node_eq (i : ℕ) (r : Rng) :
    (create_node i r).1 =
      { id := "Node-" ++ decRepr (i + 1),
        cpu := ((randint 2 10 r).1 : ℚ),
        memory := ((randint 8 32 (randint 2 10 r).2).1 : ℚ),
        bandwidth := ((randint 50 150 (randint 8 32 (randint 2 10 r).2).2).1 : ℚ),
        reliability := round2 (uniformQ (85/100) (99/100)
          (randint 50 150 (randint 8 32 (randint 2 10 r).2).2).2).1,
        cost := round2 (uniformQ (1/2) 3 (uniformQ (85/100) (99/100)
          (randint 50 150 (randint 8 32 (randint 2 10 r).2).2).2).2).1,
        load := 0 } := rfl

/-- The field ranges of a generated node (spec §3/§4.1). -/
theorem create_node_ranges (i : ℕ) (r : Rng) :
    2 ≤ ((create_node i r).1).cpu ∧ ((create_node i r).1).cpu ≤ 10 ∧
    8 ≤ ((create_node i r).1).memory ∧ ((create_node i r).1).memory ≤ 32 ∧
    50 ≤ ((create_node i r).1).bandwidth ∧
      ((create_node i r).1).bandwidth ≤ 150 ∧
    85/100 ≤ ((create_node i r).1).reliability ∧
      ((create_node i r).1).reliability ≤ 99/100 ∧
    1/2 ≤ ((create_node i r).1).cost ∧ ((create_node i r).1).cost ≤ 3 ∧
    ((create_node i r).1).load = 0 := by
  have h1 := randint_mem (a := 2) (b := 10) (by norm_num) r
  have h2 := randint_mem (a := 8) (b := 32) (by norm_num) (randint 2 10 r).2
  have h3 := randint_mem (a := 50) (b := 150) (by norm_num)
    (randint 8 32 (randint 2 10 r).2).2
  have h4 := uniformQ_mem (a := 85/100) (b := 99/100) (by norm_num)
    (randint 50 150 (randint 8 32 (randint 2 10 r).2).2).2
  have h5 := uniformQ_mem (a := 1/2) (b := 3) (by norm_num)
    (uniformQ (85/100) (99/100)
      (randint 50 150 (randint 8 32 (randint 2 10 r).2).2).2).2
  have hrel := round2_mem 85 99
    (uniformQ (85/100) (99/100)
      (randint 50 150 (randint 8 32 (randint 2 10 r).2).2).2).1
    (by push_cast; exact h4.1) (by push_cast; exact h4.2)
  have hcost := round2_mem 50 300
    (uniformQ (1/2) 3 (uniformQ (85/100) (99/100)
      (randint 50 150 (randint 8 32 (randint 2 10 r).2).2).2).2).1
    (by push_cast; linarith [h5.1]) (by push_cast; linarith [h5.2])
  rw [create_node_eq]
  refine ⟨?_, ?_, ?_, ?_, ?_, ?_, ?_, ?_, ?_, ?_, rfl⟩ <;> simp only
  · exact_mod_cast h1.1
  · exact_mod_cast h1.2
  · exact_mod_cast h2.1
  · exact_mod_cast h2.2
  · exact_mod_cast h3.1
  · exact_mod_cast h3.2
  · have := hrel.1; push_cast at this; linarith
  · have := hrel.2; push_cast at this; linarith
  · have := hcost.1; push_cast at this; linarith
  · have := hcost.2; push_cast at this; linarith

theorem create_nodes_go_length (i m : ℕ) (r : Rng) :
    ((create_nodes_go i m r).1).length = m := by
  induction m generalizing i r with
  | zero => rfl
  | succ m ih =>
    show ((create_node i r).1 ::
      (create_nodes_go (i+1) m (create_node i r).2).1).length = m + 1
    simp [ih]

theorem create_nodes_go_mem (i m : ℕ) (r : Rng) :
    ∀ nd ∈ (create_nodes_go i m r).1,
      ∃ j r', j < m ∧ nd = (create_node (i + j) r').1 := by
  induction m generalizing i r with
  | zero => intro nd h; simp [create_nodes_go] at h
  | succ m ih =>
    intro nd h
    have h' : nd = (create_node i r).1 ∨
        nd ∈ (create_nodes_go (i+1) m (create_node i r).2).1 := by
      simpa [create_nodes_go] using h
    rcases h' with h' | h'
    · exact ⟨0, r, by omega, by simpa using h'⟩
    · obtain ⟨j, r', hj, he⟩ := ih (i+1) (create_node i r).2 nd h'
      exact ⟨j + 1, r', by omega, by rw [he]; ring_nf⟩

theorem create_nodes_go_map_id (i m : ℕ) (r : Rng) :
    ((create_nodes_go i m r).1).map Node.id =
      (List.range' (i+1) m).map (fun k => "Node-" ++ decRepr k) := by
  induction m generalizing i r with
  | zero => rfl
  | succ m ih =>
    show ((create_node i r).1 ::
        (create_nodes_go (i+1) m (create_node i r).2).1).map Node.id = _
    rw [List.range'_succ]
    simp only [List.map_cons, List.map_map]
    rw [show ((create_node i r).1).id = "Node-" ++ decRepr (i + 1) from rfl]
    congr 1
    simpa using ih (i+1) (create_node i r).2

theorem create_nodes_id_nodup (n : ℕ) (r : Rng) :
    (((create_nodes n r).1).map Node.id).Nodup := by
  rw [create_nodes, create_nodes_go_map_id]
  exact (List.nodup_range' 1 n).map (prefixed_decRepr_injective "Node-")

theorem create_task_eq (i : ℕ) (r : Rng) :
    (create_task i r).1 =
      { id := "Task-" ++ decRepr (i + 1),
        workload := ((randint 3 10 r).1 : ℚ),
        priority := (pyChoice ["Low", "Medium", "High"] "" (randint 3 10 r).2).1,
        sla_time := ((randint 3 9
          (pyChoice ["Low", "Medium", "High"] "" (randint 3 10 r).2).2).1 : ℚ) } :=
  rfl

theorem create_task_ranges (i : ℕ) (r : Rng) :
    3 ≤ ((create_task i r).1).workload ∧ ((create_task i r).1).workload ≤ 10 ∧
    3 ≤ ((create_task i r).1).sla_time ∧ ((create_task i r).1).sla_time ≤ 9 ∧
    ((create_task i r).1).priority ∈ ["Low", "Medium", "High"] := by
  have h1 := randint_mem (a := 3) (b := 10) (by norm_num) r
  have h2 := randint_mem (a := 3) (b := 9) (by norm_num)
    (pyChoice ["Low", "Medium", "High"] "" (randint 3 10 r).2).2
  have h3 := pyChoice_mem (l := ["Low", "Medium", "High"]) (by simp) ""
    (randint 3 10 r).2
  rw [create_task_eq]
  refine ⟨?_, ?_, ?_, ?_, ?_⟩ <;> simp only
  · exact_mod_cast h1.1
  · exact_mod_cast h1.2
  · exact_mod_cast h2.1
  · exact_mod_cast h2.2
  · exact h3

theorem create_tasks_go_length (i m : ℕ) (r : Rng) :
    ((create_tasks_go i m r).1).length = m := by
  induction m generalizing i r with
  | zero => rfl
  | succ m ih =>
    show ((create_task i r).1 ::
      (create_tasks_go (i+1) m (create_task i r).2).1).length = m + 1
    simp [ih]

theorem create_tasks_go_mem (i m : ℕ) (r : Rng) :
    ∀ t ∈ (create_tasks_go i m r).1,
      ∃ j r', j < m ∧ t = (create_task (i + j) r').1 := by
  induction m generalizing i r with
  | zero => intro t h; simp [create_tasks_go] at h
  | succ m ih =>
    intro t h
    have h' : t = (create_task i r).1 ∨
        t ∈ (create_tasks_go (i+1) m (create_task i r).2).1 := by
      simpa [create_tasks_go] using h
    rcases h' with h' | h'
    · exact ⟨0, r, by omega, by simpa using h'⟩
    · obtain ⟨j, r', hj, he⟩ := ih (i+1) (create_task i r).2 t h'
      exact ⟨j + 1, r', by omega, by rw [he]; ring_nf⟩

theorem create_tasks_go_map_id (i m : ℕ) (r : Rng) :
    ((create_tasks_go i m r).1).map Task.id =
      (List.range' (i+1) m).map (fun k => "Task-" ++ decRepr k) := by
  induction m generalizing i r with
  | zero => rfl
  | succ m ih =>
    show ((create_task i r).1 ::
        (create_tasks_go (i+1) m (create_task i r).2).1).map Task.id = _
    rw [List.range'_succ]
    simp only [List.map_cons, List.map_map]
    rw [show ((create_task i r).1).id = "Task-" ++ decRepr (i + 1) from rfl]
    congr 1
    simpa using ih (i+1) (create_task i r).2

theorem create_tasks_id_nodup (n : ℕ) (r : Rng) :
    (((create_tasks n r).1).map Task.id).Nodup := by
  rw [create_tasks, create_tasks_go_map_id]
  exact (List.nodup_range' 1 n).map (prefixed_decRepr_injective "Task-")

/-! Lemmas about the model of Python's stable sort. -/

theorem keyLex_trans {α : Type} (key : α → ℚ) :
    ∀ a b c : ℕ × α, keyLex key a b = true → keyLex key b c = true →
      keyLex key a c = true := by
  intro a b c hab hbc
  simp only [keyLex, decide_eq_true_eq] at *
  rcases hab with h | ⟨h1, h2⟩ <;> rcases hbc with h' | ⟨h1', h2'⟩
  · exact Or.inl (lt_trans h h')
  · exact Or.inl (h1' ▸ h)
  · exact Or.inl (h1 ▸ h')
  · exact Or.inr ⟨h1.trans h1', le_trans h2 h2'⟩

theorem keyLex_total {α : Type} (key : α → ℚ) :
    ∀ a b : ℕ × α, (keyLex key a b || keyLex key b a) = true := by
  intro a b
  simp only [keyLex, Bool.or_eq_true, decide_eq_true_eq]
  rcases lt_trichotomy (key a.2) (key b.2) with h | h | h
  · exact Or.inl (Or.inl h)
  · rcases Nat.le_total a.1 b.1 with h' | h'
    · exact Or.inl (Or.inr ⟨h, h'⟩)
    · exact Or.inr (Or.inr ⟨h.symm, h'⟩)
  · exact Or.inr (Or.inl h)

theorem keyLexDesc_trans {α : Type} (key : α → ℚ) :
    ∀ a b c : ℕ × α, keyLexDesc key a b = true → keyLexDesc key b c = true →
      keyLexDesc key a c = true := by
  intro a b c hab hbc
  simp only [keyLexDesc, decide_eq_true_eq] at *
  rcases hab with h | ⟨h1, h2⟩ <;> rcases hbc with h' | ⟨h1', h2'⟩
  · exact Or.inl (lt_trans h' h)
  · exact Or.inl (h1'.symm ▸ h)
  · exact Or.inl (h1 ▸ h')
  · exact Or.inr ⟨h1.trans h1', le_trans h2 h2'⟩

theorem keyLexDesc_total {α : Type} (key : α → ℚ) :
    ∀ a b : ℕ × α, (keyLexDesc key a b || keyLexDesc key b a) = true := by
  intro a b
  simp only [keyLexDesc, Bool.or_eq_true, decide_eq_true_eq]
  rcases lt_trichotomy (key a.2) (key b.2) with h | h | h
  · exact Or.inr (Or.inl h)
  · rcases Nat.le_total a.1 b.1 with h' | h'
    · exact Or.inl (Or.inr ⟨h, h'⟩)
    · exact Or.inr (Or.inr ⟨h.symm, h'⟩)
  · exact Or.inl (Or.inl h)

theorem pySorted_perm {α : Type} (key : α → ℚ) (l : List α) :
    (pySorted key l).Perm l := by
  unfold pySorted
  have h := (List.mergeSort_perm l.enum (keyLex key)).map Prod.snd
  rwa [List.enum_map_snd] at h

theorem pySorted_length {α : Type} (key : α → ℚ) (l : List α) :
    (pySorted key l).length = l.length :=
  (pySorted_perm key l).length_eq

theorem pySorted_sorted {α : Type} (key : α → ℚ) (l : List α) :
    (pySorted key l).Pairwise (fun a b => key a ≤ key b) := by
  unfold pySorted
  rw [List.pairwise_map]
  refine (List.sorted_mergeSort (keyLex_trans key) (keyLex_total key)
    l.enum).imp ?_
  intro a b hab
  simp only [keyLex, decide_eq_true_eq] at hab
  rcases hab with h | ⟨h, _⟩
  · exact le_of_lt h
  · exact le_of_eq h

theorem enum_pairwise_fst_lt {α : Type} (l : List α) :
    l.enum.Pairwise (fun a b => a.1 < b.1) := by
  have h := List.pairwise_lt_range l.length
  rw [← List.enum_map_fst, List.pairwise_map] at h
  exact h

theorem mergeSort_enum_pairwise_fst_ne {α : Type} (l : List α)
    (le : (ℕ × α) → (ℕ × α) → Bool) :
    (l.enum.mergeSort le).Pairwise (fun a b => a.1 ≠ b.1) := by
  have hperm : ((l.enum.mergeSort le).map Prod.fst).Perm
      (l.enum.map Prod.fst) := (List.mergeSort_perm l.enum le).map Prod.fst
  have hnodup : ((l.enum.mergeSort le).map Prod.fst).Nodup := by
    refine hperm.symm.nodup ?_
    rw [List.enum_map_fst]
    exact List.nodup_range l.length
  exact List.pairwise_map.mp hnodup

/-- Stability of the sort model: elements sharing a key value keep their
original relative order (here: the filtered sublists coincide). -/
theorem pySorted_stable {α : Type} (key : α → ℚ) (l : List α) (q : ℚ) :
    (pySorted key l).filter (fun x => decide (key x = q)) =
      l.filter (fun x => decide (key x = q)) := by
  classical
  unfold pySorted
  have hstep1 :
      ((l.enum.mergeSort (keyLex key)).map Prod.snd).filter
          (fun x => decide (key x = q)) =
        ((l.enum.mergeSort (keyLex key)).filter
          ((fun x => decide (key x = q)) ∘ Prod.snd)).map Prod.snd :=
    List.filter_map Prod.snd _
  have hstep3 :
      (l.enum.filter ((fun x => decide (key x = q)) ∘ Prod.snd)).map Prod.snd =
        l.filter (fun x => decide (key x = q)) := by
    have := List.filter_map (p := fun x => decide (key x = q)) Prod.snd l.enum
    rw [List.enum_map_snd] at this
    exact this.symm
  rw [hstep1, ← hstep3]
  congr 1
  -- the two filtered index-tagged lists are permutations of each other and
  -- both strictly sorted by original index, hence equal
  have hperm : ((l.enum.mergeSort (keyLex key)).filter
      ((fun x => decide (key x = q)) ∘ Prod.snd)).Perm
      (l.enum.filter ((fun x => decide (key x = q)) ∘ Prod.snd)) :=
    (List.mergeSort_perm l.enum (keyLex key)).filter _
  haveI : IsAntisymm (ℕ × α) (fun a b => a.1 < b.1) :=
    ⟨fun a b h1 h2 => absurd (lt_trans h1 h2) (lt_irrefl _)⟩
  have hpred : ((fun x => decide (key x = q)) ∘ (Prod.snd : ℕ × α → α)) =
      (fun x : ℕ × α => decide (key x.2 = q)) := rfl
  rw [hpred] at hperm ⊢
  have hs1 : ((l.enum.mergeSort (keyLex key)).filter
      (fun x : ℕ × α => decide (key x.2 = q))).Pairwise
        (fun a b => a.1 < b.1) := by
    have hp1 := List.sorted_mergeSort (keyLex_trans key) (keyLex_total key)
      l.enum
    have hp2 := mergeSort_enum_pairwise_fst_ne l (keyLex key)
    refine List.pairwise_filter.mpr ?_
    refine (hp1.and hp2).imp ?_
    intro a b hab ha hb
    obtain ⟨hlex, hne⟩ := hab
    simp only [keyLex, decide_eq_true_eq] at hlex
    rcases hlex with h | ⟨_, h2⟩
    · rw [ha, hb] at h; exact absurd h (lt_irrefl q)
    · exact lt_of_le_of_ne h2 hne
  have hs2 : (l.enum.filter
      (fun x : ℕ × α => decide (key x.2 = q))).Pairwise
        (fun a b => a.1 < b.1) :=
    List.Pairwise.filter _ (enum_pairwise_fst_lt l)
  exact List.eq_of_perm_of_sorted hperm hs1 hs2

/-- The head of the descending stable sort is a node of the list that
attains the maximal key, and among maximal nodes it is the one with the
least original index. -/
theorem pySortedDescEnum_head {α : Type} (key : α → ℚ) (l : List α)
    (hl : l ≠ []) :
    ∃ j nd t, pySortedDescEnum key l = (j, nd) :: t ∧ l[j]? = some nd ∧
      (∀ p ∈ l.enum, key p.2 ≤ key nd) ∧
      (∀ p ∈ l.enum, key p.2 = key nd → j ≤ p.1) := by
  have hlen : (pySortedDescEnum key l).length = l.length := by
    unfold pySortedDescEnum
    rw [(List.mergeSort_perm l.enum (keyLexDesc key)).length_eq,
      List.enum_length]
  match hs : pySortedDescEnum key l with
  | [] =>
    rw [hs] at hlen
    have : l.length = 0 := hlen.symm
    exact absurd (List.length_eq_zero.mp this) hl
  | (j, nd) :: t =>
    refine ⟨j, nd, t, rfl, ?_, ?_, ?_⟩
    · have hmem : (j, nd) ∈ l.enum := by
        have : (j, nd) ∈ pySortedDescEnum key l := by rw [hs]; simp
        exact (List.mergeSort_perm l.enum (keyLexDesc key)).subset this
      exact List.mem_enum_iff_getElem?.mp hmem
    · intro p hp
      have hp' : p ∈ pySortedDescEnum key l :=
        (List.mergeSort_perm l.enum (keyLexDesc key)).symm.subset hp
      rw [hs] at hp'
      rcases List.mem_cons.mp hp' with h | h
      · rw [h]
      · have hpw : List.Pairwise (fun a b => keyLexDesc key a b = true)
            ((j, nd) :: t) := by
          rw [← hs]
          exact List.sorted_mergeSort (keyLexDesc_trans key)
            (keyLexDesc_total key) l.enum
        have := (List.pairwise_cons.mp hpw).1 p h
        simp only [keyLexDesc, decide_eq_true_eq] at this
        rcases this with h' | ⟨h', _⟩
        · exact le_of_lt h'
        · exact le_of_eq h'.symm
    · intro p hp heq
      have hp' : p ∈ pySortedDescEnum key l :=
        (List.mergeSort_perm l.enum (keyLexDesc key)).symm.subset hp
      rw [hs] at hp'
      rcases List.mem_cons.mp hp' with h | h
      · rw [h]
      · have hpw : List.Pairwise (fun a b => keyLexDesc key a b = true)
            ((j, nd) :: t) := by
          rw [← hs]
          exact List.sorted_mergeSort (keyLexDesc_trans key)
            (keyLexDesc_total key) l.enum
        have := (List.pairwise_cons.mp hpw).1 p h
        simp only [keyLexDesc, decide_eq_true_eq] at this
        rcases this with h' | ⟨_, h'⟩
        · rw [heq] at h'; exact absurd h' (lt_irrefl _)
        · exact h'

/-! Lemmas about the shared cyclic assignment loop. -/

theorem modifyAt_length (j : ℕ) (f : Node → Node) (l : List Node) :
    (modifyAt j f l).length = l.length := by
  induction l generalizing j with
  | nil => simp [modifyAt]
  | cons n ns ih =>
    cases j with
    | zero => rfl
    | succ j' => simpa [modifyAt] using ih j'

theorem modifyAt_getElem? (j : ℕ) (f : Node → Node) (l : List Node) (i : ℕ) :
    (modifyAt j f l)[i]? = if i = j then (l[i]?).map f else l[i]? := by
  induction l generalizing i j with
  | nil => simp [modifyAt]
  | cons n ns ih =>
    cases j with
    | zero =>
      cases i with
      | zero => simp [modifyAt]
      | succ i' => simp [modifyAt]
    | succ j' =>
      cases i with
      | zero => simp [modifyAt]
      | succ i' => simpa [modifyAt] using ih j' i'

theorem modifyAt_map_id (j : ℕ) (f : Node → Node)
    (hf : ∀ n, (f n).id = n.id) (l : List Node) :
    (modifyAt j f l).map Node.id = l.map Node.id := by
  induction l generalizing j with
  | nil => simp [modifyAt]
  | cons n ns ih =>
    cases j with
    | zero => simp [modifyAt, hf]
    | succ j' => simpa [modifyAt] using ih j'

theorem cycleAsgs_getElem? (ids : List String) (i : ℕ) (ts : List Task)
    (n : ℕ) :
    (cycleAsgs ids i ts)[n]? =
      (ts[n]?).map (fun t => (t.id, ids.getD ((i + n) % ids.length) "")) := by
  induction ts generalizing i n with
  | nil => simp [cycleAsgs]
  | cons t ts ih =>
    cases n with
    | zero => simp [cycleAsgs]
    | succ n' =>
      have := ih (i + 1) n'
      simpa [cycleAsgs, Nat.add_assoc, Nat.add_comm 1 n'] using this

theorem cycleAsgs_map_fst (ids : List String) (i : ℕ) (ts : List Task) :
    (cycleAsgs ids i ts).map Prod.fst = ts.map Task.id := by
  induction ts generalizing i with
  | nil => rfl
  | cons t ts ih => simp [cycleAsgs, ih]

theorem cycleAsgs_snd_mem (ids : List String) (hids : ids ≠ []) (i : ℕ)
    (ts : List Task) : ∀ p ∈ cycleAsgs ids i ts, p.2 ∈ ids := by
  induction ts generalizing i with
  | nil => intro p hp; simp [cycleAsgs] at hp
  | cons t ts ih =>
    intro p hp
    rcases List.mem_cons.mp hp with h | h
    · rw [h]
      have hlen : 0 < ids.length := List.length_pos.mpr hids
      have hidx : i % ids.length < ids.length := Nat.mod_lt _ hlen
      rw [List.getD_eq_getElem ids "" hidx]
      exact List.getElem_mem _
    · exact ih (i + 1) p h

theorem assignedSum_cons (i k j : ℕ) (t : Task) (ts : List Task) :
    assignedSum i k j (t :: ts) =
      (if i % k = j then t.workload else 0) + assignedSum (i + 1) k j ts :=
  rfl

theorem assignedSum_nonneg (i k j : ℕ) (ts : List Task)
    (hw : ∀ t ∈ ts, 0 ≤ t.workload) : 0 ≤ assignedSum i k j ts := by
  induction ts generalizing i with
  | nil => simp [assignedSum]
  | cons t ts ih =>
    have h1 : 0 ≤ t.workload := hw t (by simp)
    have h2 : 0 ≤ assignedSum (i + 1) k j ts :=
      ih (i + 1) (fun t' ht' => hw t' (List.mem_cons_of_mem _ ht'))
    unfold assignedSum
    split <;> linarith

/-- Full characterisation of the cyclic loop: it always succeeds on a
non-empty pool, its assignment list is the closed form `cycleAsgs`, and the
final node at pool index `j` is the initial node with the workloads routed
to `j` added to its load (all other fields untouched). -/
theorem cycleGo_spec (ts : List Task) (i : ℕ) (nodes : List Node)
    (h : nodes ≠ []) :
    ∃ fin, cycleGo i nodes ts =
        some (cycleAsgs (nodes.map Node.id) i ts, fin) ∧
      ∀ j : ℕ, fin[j]? = (nodes[j]?).map (fun nd : Node =>
        { nd with load := nd.load + assignedSum i nodes.length j ts }) := by
  induction ts generalizing i nodes with
  | nil =>
    refine ⟨nodes, rfl, ?_⟩
    intro j
    have : ∀ nd : Node,
        ({ nd with load := nd.load + assignedSum i nodes.length j [] } : Node)
          = nd := by
      intro nd
      cases nd
      simp [assignedSum]
    simp [this]
  | cons t ts ih =>
    have hlen : 0 < nodes.length := List.length_pos.mpr h
    have hidx : i % nodes.length < nodes.length := Nat.mod_lt _ hlen
    have hnd : nodes[i % nodes.length]? = some nodes[i % nodes.length] :=
      List.getElem?_eq_getElem hidx
    set nd := nodes[i % nodes.length] with hnddef
    set nodes' := modifyAt (i % nodes.length)
      (fun n => { n with load := n.load + t.workload }) nodes with hnodes'
    have hlen' : nodes'.length = nodes.length := modifyAt_length _ _ _
    have h' : nodes' ≠ [] := by
      intro hcon
      rw [hcon] at hlen'
      simp at hlen'
      omega
    obtain ⟨fin, hrec, hfin⟩ := ih (i + 1) nodes' h'
    have hids : nodes'.map Node.id = nodes.map Node.id :=
      modifyAt_map_id (i % nodes.length)
        (fun n => { n with load := n.load + t.workload }) (fun n => rfl) nodes
    refine ⟨fin, ?_, ?_⟩
    · show (match nodes[i % nodes.length]? with
        | none => none
        | some nd =>
          match cycleGo (i + 1) nodes' ts with
          | none => none
          | some (asgs, fin) => some ((t.id, nd.id) :: asgs, fin)) =
        some (cycleAsgs (nodes.map Node.id) i (t :: ts), fin)
      rw [hnd, hrec, hids]
      show some ((t.id, nd.id) :: cycleAsgs (nodes.map Node.id) (i+1) ts, fin)
        = some (cycleAsgs (nodes.map Node.id) i (t :: ts), fin)
      have hgetD : (nodes.map Node.id).getD
          (i % (nodes.map Node.id).length) "" = nd.id := by
        rw [List.length_map]
        have hmx : (nodes.map Node.id)[i % nodes.length]? = some nd.id := by
          rw [List.getElem?_map, hnd]
          rfl
        rw [List.getD_eq_getElem?_getD, hmx]
        rfl
      show _ = some (((t.id, (nodes.map Node.id).getD
          (i % (nodes.map Node.id).length) "")) ::
        cycleAsgs (nodes.map Node.id) (i + 1) ts, fin)
      rw [hgetD]
    · intro j
      rw [hfin j, hnodes', modifyAt_getElem?, hlen']
      by_cases hj : j = i % nodes.length
      · rw [if_pos hj, Option.map_map, hj, hnd]
        have hsum : assignedSum i nodes.length (i % nodes.length) (t :: ts) =
            t.workload + assignedSum (i + 1) nodes.length
              (i % nodes.length) ts := by
          rw [assignedSum_cons, if_pos rfl]
        cases nd
        simp [hsum]
        ring
      · rw [if_neg hj]
        congr 1
        funext nd'
        have hne : ¬ (i % nodes.length = j) := fun hc => hj hc.symm
        have hsum : assignedSum i nodes.length j (t :: ts) =
            assignedSum (i + 1) nodes.length j ts := by
          rw [assignedSum_cons, if_neg hne, zero_add]
        rw [hsum]

/-! Lemmas about the predictive strategy. -/

theorem perturbNode_eq (nd : Node) (r : Rng) :
    (perturbNode nd r).1 =
      { nd with
          cpu := max 1 (nd.cpu + (pyChoice [(-1 : ℚ), 0, 1] 0 r).1),
          bandwidth := max 10 (nd.bandwidth +
            (pyChoice [(-10 : ℚ), 0, 10] 0
              (pyChoice [(-1 : ℚ), 0, 1] 0 r).2).1),
          reliability := max (7/10) (min (99/100) (nd.reliability +
            (pyChoice [(-1/100 : ℚ), 0, 1/100] 0
              (pyChoice [(-10 : ℚ), 0, 10] 0
                (pyChoice [(-1 : ℚ), 0, 1] 0 r).2).2).1)) } := rfl

theorem perturbNode_shape (nd : Node) (r : Rng) :
    ∃ d1 d2 d3 : ℚ, d1 ∈ [(-1 : ℚ), 0, 1] ∧ d2 ∈ [(-10 : ℚ), 0, 10] ∧
      d3 ∈ [(-1/100 : ℚ), 0, 1/100] ∧
      (perturbNode nd r).1 =
        { nd with
            cpu := max 1 (nd.cpu + d1),
            bandwidth := max 10 (nd.bandwidth + d2),
            reliability := max (7/10) (min (99/100) (nd.reliability + d3)) } := by
  refine ⟨_, _, _, ?_, ?_, ?_, perturbNode_eq nd r⟩
  · exact pyChoice_mem (by simp) 0 r
  · exact pyChoice_mem (by simp) 0 _
  · exact pyChoice_mem (by simp) 0 _

theorem perturbNode_inv (nd : Node) (r : Rng) (h : NodeInv nd) :
    NodeInv (perturbNode nd r).1 := by
  obtain ⟨hload, _, _, _, _⟩ := h
  rw [perturbNode_eq]
  refine ⟨hload, ?_, ?_, le_max_left _ _, le_max_left _ _⟩
  · have : (mkRat 7 10 : ℚ) = 7/10 := by rw [Rat.mkRat_eq_div]; norm_num
    rw [this]
    exact le_max_left _ _
  · have h99 : (mkRat 99 100 : ℚ) = 99/100 := by
      rw [Rat.mkRat_eq_div]; norm_num
    rw [h99]
    refine max_le (by norm_num) (min_le_left _ _)

theorem perturbAll_fst (n : Node) (ns : List Node) (r : Rng) :
    (perturbAll (n :: ns) r).1 =
      (perturbNode n r).1 :: (perturbAll ns (perturbNode n r).2).1 := rfl

theorem perturbAll_length (nodes : List Node) (r : Rng) :
    ((perturbAll nodes r).1).length = nodes.length := by
  induction nodes generalizing r with
  | nil => rfl
  | cons n ns ih =>
    rw [perturbAll_fst]
    simp [ih]

theorem perturbAll_map_id (nodes : List Node) (r : Rng) :
    ((perturbAll nodes r).1).map Node.id = nodes.map Node.id := by
  induction nodes generalizing r with
  | nil => rfl
  | cons n ns ih =>
    rw [perturbAll_fst]
    simp only [List.map_cons, ih]
    rw [show ((perturbNode n r).1).id = n.id from rfl]

theorem perturbAll_getElem? (nodes : List Node) (r : Rng) (j : ℕ) :
    ∃ r' : Rng, ((perturbAll nodes r).1)[j]? =
      (nodes[j]?).map (fun nd => (perturbNode nd r').1) := by
  induction nodes generalizing r j with
  | nil => exact ⟨r, by simp [perturbAll]⟩
  | cons n ns ih =>
    cases j with
    | zero => exact ⟨r, by rw [perturbAll_fst]; simp⟩
    | succ j' =>
      obtain ⟨r', hr'⟩ := ih (perturbNode n r).2 j'
      refine ⟨r', ?_⟩
      rw [perturbAll_fst]
      simpa using hr'

theorem perturbAll_inv (nodes : List Node) (r : Rng)
    (h : ∀ nd ∈ nodes, NodeInv nd) :
    ∀ nd ∈ (perturbAll nodes r).1, NodeInv nd := by
  induction nodes generalizing r with
  | nil => intro nd hnd; simp [perturbAll] at hnd
  | cons n ns ih =>
    intro nd hnd
    rw [perturbAll_fst] at hnd
    rcases List.mem_cons.mp hnd with h' | h'
    · rw [h']
      exact perturbNode_inv n r (h n (by simp))
    · exact ih (perturbNode n r).2 (fun x hx => h x (by simp [hx])) nd h'

theorem modifyAt_load_inv (j : ℕ) (w : ℚ) (hw : 0 ≤ w) (l : List Node)
    (h : ∀ nd ∈ l, NodeInv nd) :
    ∀ nd ∈ modifyAt j (fun n => { n with load := n.load + w }) l,
      NodeInv nd := by
  induction l generalizing j with
  | nil => intro nd hnd; simp [modifyAt] at hnd
  | cons n ns ih =>
    intro nd hnd
    cases j with
    | zero =>
      rcases List.mem_cons.mp hnd with h' | h'
      · rw [h']
        obtain ⟨h1, h2, h3, h4, h5⟩ := h n (by simp)
        exact ⟨by positivity, h2, h3, h4, h5⟩
      · exact h nd (by simp [h'])
    | succ j' =>
      rcases List.mem_cons.mp hnd with h' | h'
      · rw [h']; exact h n (by simp)
      · exact ih j' (fun x hx => h x (by simp [hx])) nd h'

/-- One iteration of `predictive_qos`: all nodes are perturbed, the chosen
node maximises the score with earliest-position tie-break, and only its load
changes. -/
theorem predictive_step_spec (nodes : List Node) (t : Task) (r : Rng)
    (h : nodes ≠ []) :
    ∃ j nd, ((perturbAll nodes r).1)[j]? = some nd ∧
      predictive_step nodes t r =
        (some (modifyAt j (fun n => { n with load := n.load + t.workload })
          (perturbAll nodes r).1, (t.id, nd.id)), (perturbAll nodes r).2) ∧
      (∀ (i : ℕ) (m : Node), ((perturbAll nodes r).1)[i]? = some m →
        qosScore m ≤ qosScore nd) ∧
      (∀ (i : ℕ) (m : Node), ((perturbAll nodes r).1)[i]? = some m →
        qosScore m = qosScore nd → j ≤ i) := by
  rcases hp : perturbAll nodes r with ⟨ns, r'⟩
  have hlen : ns.length = nodes.length := by
    have := perturbAll_length nodes r
    rw [hp] at this
    exact this
  have hne : ns ≠ [] := by
    refine List.ne_nil_of_length_pos ?_
    rw [hlen]
    exact List.length_pos.mpr h
  obtain ⟨j, nd, tl, hs, hget, hmax, htie⟩ :=
    pySortedDescEnum_head qosScore ns hne
  refine ⟨j, nd, hget, ?_, ?_, ?_⟩
  · show predictive_step nodes t r = _
    unfold predictive_step
    rw [hp]
    dsimp only
    rw [hs]
    rfl
  · intro i m hm
    exact hmax (i, m) (List.mem_enum_iff_getElem?.mpr hm)
  · intro i m hm heq
    exact htie (i, m) (List.mem_enum_iff_getElem?.mpr hm) heq

theorem predictive_qos_run (ts : List Task) :
    ∀ (nodes : List Node) (r : Rng), nodes ≠ [] →
    ∃ asgs fin r2, predictive_qos nodes ts r = (some (asgs, fin), r2) ∧
      asgs.map Prod.fst = ts.map Task.id ∧
      (∀ p ∈ asgs, p.2 ∈ nodes.map Node.id) ∧
      fin.map Node.id = nodes.map Node.id := by
  induction ts with
  | nil =>
    intro nodes r _
    exact ⟨[], nodes, r, rfl, rfl, by simp, rfl⟩
  | cons t ts ih =>
    intro nodes r h
    obtain ⟨j, nd, hget, hstep, _, _⟩ := predictive_step_spec nodes t r h
    set ns := (perturbAll nodes r).1 with hns
    set ns2 := modifyAt j (fun n => { n with load := n.load + t.workload }) ns
      with hns2
    have hids2 : ns2.map Node.id = nodes.map Node.id := by
      rw [hns2, modifyAt_map_id j
        (fun n => { n with load := n.load + t.workload }) (fun n => rfl),
        hns, perturbAll_map_id]
    have hne2 : ns2 ≠ [] := by
      refine List.ne_nil_of_length_pos ?_
      have : ns2.length = nodes.length := by
        rw [hns2, modifyAt_length, hns, perturbAll_length]
      rw [this]
      exact List.length_pos.mpr h
    obtain ⟨asgs, fin, r2, hrun, hfst, hsnd, hfin⟩ :=
      ih ns2 (perturbAll nodes r).2 hne2
    refine ⟨(t.id, nd.id) :: asgs, fin, r2, ?_, ?_, ?_, ?_⟩
    · show (match predictive_step nodes t r with
        | (none, r') => (none, r')
        | (some (ns', a), r') =>
          match predictive_qos ns' ts r' with
          | (none, r'') => (none, r'')
          | (some (asgs', fin'), r'') => (some (a :: asgs', fin'), r'')) = _
      rw [hstep]
      show (match predictive_qos ns2 ts (perturbAll nodes r).2 with
        | (none, r'') => (none, r'')
        | (some (asgs', fin'), r'') =>
          (some ((t.id, nd.id) :: asgs', fin'), r'')) = _
      rw [hrun]
    · simp [hfst]
    · intro p hp
      rcases List.mem_cons.mp hp with h' | h'
      · rw [h']
        have hmem : nd ∈ ns := by
          rw [List.mem_iff_getElem?]
          exact ⟨j, hget⟩
        have : nd.id ∈ ns.map Node.id := List.mem_map_of_mem Node.id hmem
        rwa [hns, perturbAll_map_id] at this
      · have := hsnd p h'
        rwa [hids2] at this
    · rw [hfin, hids2]

theorem predictive_qos_inv (ts : List Task) :
    ∀ (nodes : List Node) (r : Rng), nodes ≠ [] →
    (∀ nd ∈ nodes, NodeInv nd) → (∀ t ∈ ts, 0 ≤ t.workload) →
    ∀ asgs fin r2, predictive_qos nodes ts r = (some (asgs, fin), r2) →
      ∀ nd ∈ fin, NodeInv nd := by
  induction ts with
  | nil =>
    intro nodes r _ hinv _ asgs fin r2 hrun
    have heq : ((some ([], nodes) :
        Option (List (String × String) × List Node)), r) =
        (some (asgs, fin), r2) := hrun
    have h1 : (some ([], nodes) :
        Option (List (String × String) × List Node)) = some (asgs, fin) :=
      congrArg Prod.fst heq
    have h2 : (([], nodes) : List (String × String) × List Node) =
        (asgs, fin) := Option.some.inj h1
    have h3 : nodes = fin := congrArg Prod.snd h2
    intro nd hnd
    exact hinv nd (h3 ▸ hnd)
  | cons t ts ih =>
    intro nodes r h hinv hw asgs fin r2 hrun
    obtain ⟨j, nd, hget, hstep, _, _⟩ := predictive_step_spec nodes t r h
    set ns := (perturbAll nodes r).1 with hns
    set ns2 := modifyAt j (fun n => { n with load := n.load + t.workload }) ns
      with hns2
    have hinv2 : ∀ nd ∈ ns2, NodeInv nd := by
      refine modifyAt_load_inv j t.workload (hw t (by simp)) ns ?_
      exact perturbAll_inv nodes r hinv
    have hne2 : ns2 ≠ [] := by
      refine List.ne_nil_of_length_pos ?_
      have : ns2.length = nodes.length := by
        rw [hns2, modifyAt_length, hns, perturbAll_length]
      rw [this]
      exact List.length_pos.mpr h
    have hrun' : (match predictive_qos ns2 ts (perturbAll nodes r).2 with
        | (none, r'') => (none, r'')
        | (some (asgs', fin'), r'') =>
          (some ((t.id, nd.id) :: asgs', fin'), r'')) = (some (asgs, fin), r2)
        := by
      rw [← hrun]
      show _ = (match predictive_step nodes t r with
        | (none, r') => (none, r')
        | (some (ns', a), r') =>
          match predictive_qos ns' ts r' with
          | (none, r'') => (none, r'')
          | (some (asgs', fin'), r'') => (some (a :: asgs', fin'), r''))
      rw [hstep]
    match hq : predictive_qos ns2 ts (perturbAll nodes r).2 with
    | (none, r'') =>
      rw [hq] at hrun'
      simp at hrun'
    | (some (asgs', fin'), r'') =>
      rw [hq] at hrun'
      have hfin : fin' = fin := by
        have := congrArg Prod.fst hrun'
        simp at this
        exact this.2
      exact hfin ▸ ih ns2 (perturbAll nodes r).2 hne2 hinv2
        (fun t' ht' => hw t' (by simp [ht'])) asgs' fin' r'' hq

/-! Lemmas about the evaluator and the aggregation. -/

theorem roundHalfEven_eq_floor (q : ℚ) (h : q - ⌊q⌋ < 1/2) :
    roundHalfEven q = ⌊q⌋ := by
  unfold roundHalfEven
  rw [if_pos h]

theorem round2_concrete (q : ℚ) (f : ℤ) (h1 : ⌊q * 100⌋ = f)
    (h2 : q * 100 - f < 1/2) : round2 q = (f : ℚ) / 100 := by
  unfold round2
  rw [roundHalfEven_eq_floor _ (by rw [h1]; exact h2), h1]

theorem roundHalfEven_eq_floor_succ (q : ℚ) (h : 1/2 < q - ⌊q⌋) :
    roundHalfEven q = ⌊q⌋ + 1 := by
  unfold roundHalfEven
  rw [if_neg (by linarith), if_pos h]

theorem round2_concrete_up (q : ℚ) (f : ℤ) (h1 : ⌊q * 100⌋ = f)
    (h2 : 1/2 < q * 100 - f) : round2 q = ((f : ℚ) + 1) / 100 := by
  unfold round2
  rw [roundHalfEven_eq_floor_succ _ (by rw [h1]; exact h2), h1]
  push_cast
  ring

theorem evaluate_all_recCheck (asgs : List (String × String))
    (tasks : List Task) (nodes : List Node) (r : Rng) :
    (((evaluate asgs tasks nodes r).1).getD []).all (recCheck tasks nodes)
      = true := by
  induction asgs generalizing r with
  | nil => rfl
  | cons a rest ih =>
    obtain ⟨tid, nid⟩ := a
    simp only [evaluate]
    cases hfn : nodes.find? (fun n => n.id == nid) with
    | none => rfl
    | some node =>
      cases hft : tasks.find? (fun t => t.id == tid) with
      | none => rfl
      | some task =>
        rcases hu : uniformQ (1/10) (3/2) r with ⟨u, r1⟩
        rcases hrec : evaluate rest tasks nodes r1 with ⟨orecs, r2⟩
        cases orecs with
        | none => rfl
        | some recs =>
          have hall : recs.all (recCheck tasks nodes) = true := by
            have := ih r1
            rw [hrec] at this
            exact this
          show (List.all (_ :: recs) (recCheck tasks nodes)) = true
          rw [List.all_cons, hall, Bool.and_true]
          simp only [recCheck, hfn, hft]
          simp [decide_eq_true_eq]

theorem evaluate_all_slaCheck (asgs : List (String × String))
    (tasks : List Task) (nodes : List Node) (r : Rng) :
    (((evaluate asgs tasks nodes r).1).getD []).all (slaCheck tasks nodes)
      = true := by
  induction asgs generalizing r with
  | nil => rfl
  | cons a rest ih =>
    obtain ⟨tid, nid⟩ := a
    simp only [evaluate]
    cases hfn : nodes.find? (fun n => n.id == nid) with
    | none => rfl
    | some node =>
      cases hft : tasks.find? (fun t => t.id == tid) with
      | none => rfl
      | some task =>
        rcases hu : uniformQ (1/10) (3/2) r with ⟨u, r1⟩
        rcases hrec : evaluate rest tasks nodes r1 with ⟨orecs, r2⟩
        cases orecs with
        | none => rfl
        | some recs =>
          have hall : recs.all (slaCheck tasks nodes) = true := by
            have := ih r1
            rw [hrec] at this
            exact this
          show (List.all (_ :: recs) (slaCheck tasks nodes)) = true
          rw [List.all_cons, hall, Bool.and_true]
          simp only [slaCheck, hfn, hft]
          simp [decide_eq_true_eq]

theorem aggregate_nil : aggregate [] = Except.error AggError.zeroDivision :=
  rfl

theorem aggregate_nonempty (recs : List EvalRecord) (h : recs ≠ []) :
    aggregate recs = Except.ok
      ((((recs.filter (fun rec => rec.sla_met)).length : ℚ)) /
          ((recs.length : ℚ)),
        ((recs.map (fun rec => rec.qos_score)).sum) / ((recs.length : ℚ))) := by
  unfold aggregate
  rw [if_neg]
  intro hcon
  exact h (List.length_eq_zero.mp hcon)

theorem slaRate_bounds (recs : List EvalRecord) (h : recs ≠ []) :
    0 ≤ (((recs.filter (fun rec => rec.sla_met)).length : ℚ)) /
        ((recs.length : ℚ)) ∧
      (((recs.filter (fun rec => rec.sla_met)).length : ℚ)) /
        ((recs.length : ℚ)) ≤ 1 := by
  have hpos : (0 : ℚ) < (recs.length : ℚ) := by
    have := List.length_pos.mpr h
    exact_mod_cast this
  constructor
  · positivity
  · rw [div_le_one hpos]
    have := List.length_filter_le (fun rec => rec.sla_met) recs
    exact_mod_cast this

/-! Further helpers shared by the claim theorems. -/

theorem pySorted_ne_nil {α : Type} (key : α → ℚ) (l : List α) (h : l ≠ []) :
    pySorted key l ≠ [] := by
  refine List.ne_nil_of_length_pos ?_
  rw [pySorted_length]
  exact List.length_pos.mpr h

theorem map_id_getD (nodes : List Node) (i : ℕ) (nd : Node)
    (h : nodes[i]? = some nd) :
    (nodes.map Node.id).getD i "" = nd.id := by
  have hm : (nodes.map Node.id)[i]? = some nd.id := by
    rw [List.getElem?_map, h]
    rfl
  rw [List.getD_eq_getElem?_getD, hm]
  rfl

theorem cycleGo_inv (nodes : List Node) (tasks : List Task) (h : nodes ≠ [])
    (hinv : ∀ nd ∈ nodes, NodeInv nd) (hw : ∀ t ∈ tasks, 0 ≤ t.workload) :
    ∀ asgs fin, cycleGo 0 nodes tasks = some (asgs, fin) →
      ∀ nd ∈ fin, NodeInv nd := by
  intro asgs fin heq nd hnd
  obtain ⟨fin0, hgo, hchar⟩ := cycleGo_spec tasks 0 nodes h
  rw [heq] at hgo
  have hfin : fin = fin0 := congrArg Prod.snd (Option.some.inj hgo)
  subst hfin
  obtain ⟨j, hj⟩ := List.mem_iff_getElem?.mp hnd
  rw [hchar j] at hj
  match hx : nodes[j]? with
  | none => rw [hx] at hj; simp at hj
  | some nd0 =>
    rw [hx] at hj
    simp only [Option.map_some'] at hj
    have hmem : nd0 ∈ nodes := by
      rw [List.mem_iff_getElem?]
      exact ⟨j, hx⟩
    obtain ⟨h1, h2, h3, h4, h5⟩ := hinv nd0 hmem
    have hS : 0 ≤ assignedSum 0 nodes.length j tasks :=
      assignedSum_nonneg 0 nodes.length j tasks hw
    have hnd' : nd = { nd0 with
        load := nd0.load + assignedSum 0 nodes.length j tasks } :=
      (Option.some.inj hj).symm
    rw [hnd']
    exact ⟨by positivity, h2, h3, h4, h5⟩

/-- Fully evaluated form of `evaluate` on a single resolvable assignment. -/
theorem evaluate_single (tid nid : String) (task : Task) (node : Node)
    (r : Rng) (hn : node.id = nid) (ht : task.id = tid) :
    evaluate [(tid, nid)] [task] [node] r =
      (some [evalRecordOf tid nid task node (uniformQ (1/10) (3/2) r).1],
        (uniformQ (1/10) (3/2) r).2) := by
  have hfn : [node].find? (fun n => n.id == nid) = some node := by
    simp [List.find?, hn]
  have hft : [task].find? (fun t => t.id == tid) = some task := by
    simp [List.find?, ht]
  simp only [evaluate]
  rw [hfn, hft]
  rcases hu : uniformQ (1/10) (3/2) r with ⟨u, r1⟩
  rfl

/-! The claim theorems. -/

/-- C6: for every count `n ≥ 1` and any random source, `create_nodes`
returns exactly `n` nodes with pairwise-distinct ids `Node-<1-based index>`,
cpu ∈ [2,10], memory ∈ [8,32], bandwidth ∈ [50,150],
reliability ∈ [0.85,0.99], cost ∈ [0.5,3.0] and load = 0; `create_tasks`
likewise returns tasks with unique ids, workload ∈ [3,10], sla_time ∈ [3,9]
and priority among Low/Medium/High. -/
theorem claim_C6 (n : ℕ) (r : Rng) (h : 1 ≤ n) :
    ((create_nodes n r).1).length = n ∧
    (((create_nodes n r).1).map Node.id).Nodup ∧
    (∀ nd ∈ (create_nodes n r).1,
      2 ≤ nd.cpu ∧ nd.cpu ≤ 10 ∧ 8 ≤ nd.memory ∧ nd.memory ≤ 32 ∧
      50 ≤ nd.bandwidth ∧ nd.bandwidth ≤ 150 ∧
      85/100 ≤ nd.reliability ∧ nd.reliability ≤ 99/100 ∧
      1/2 ≤ nd.cost ∧ nd.cost ≤ 3 ∧ nd.load = 0) ∧
    ∀ (m : ℕ) (r2 : Rng),
      ((create_tasks m r2).1).length = m ∧
      (((create_tasks m r2).1).map Task.id).Nodup ∧
      ∀ t ∈ (create_tasks m r2).1,
        3 ≤ t.workload ∧ t.workload ≤ 10 ∧
        3 ≤ t.sla_time ∧ t.sla_time ≤ 9 ∧
        t.priority ∈ ["Low", "Medium", "High"] := by
  refine ⟨create_nodes_go_length 0 n r, create_nodes_id_nodup n r, ?_, ?_⟩
  · intro nd hnd
    obtain ⟨j, r', _, he⟩ := create_nodes_go_mem 0 n r nd hnd
    rw [he]
    exact create_node_ranges (0 + j) r'
  · intro m r2
    refine ⟨create_tasks_go_length 0 m r2, create_tasks_id_nodup m r2, ?_⟩
    intro t ht
    obtain ⟨j, r', _, he⟩ := create_tasks_go_mem 0 m r2 t ht
    rw [he]
    exact create_task_ranges (0 + j) r'

theorem claim_C6_witness :
    1 ≤ 2 ∧
    (((create_nodes 2 rngZero).1).length = 2 ∧
    (((create_nodes 2 rngZero).1).map Node.id).Nodup ∧
    (∀ nd ∈ (create_nodes 2 rngZero).1,
      2 ≤ nd.cpu ∧ nd.cpu ≤ 10 ∧ 8 ≤ nd.memory ∧ nd.memory ≤ 32 ∧
      50 ≤ nd.bandwidth ∧ nd.bandwidth ≤ 150 ∧
      85/100 ≤ nd.reliability ∧ nd.reliability ≤ 99/100 ∧
      1/2 ≤ nd.cost ∧ nd.cost ≤ 3 ∧ nd.load = 0) ∧
    ∀ (m : ℕ) (r2 : Rng),
      ((create_tasks m r2).1).length = m ∧
      (((create_tasks m r2).1).map Task.id).Nodup ∧
      ∀ t ∈ (create_tasks m r2).1,
        3 ≤ t.workload ∧ t.workload ≤ 10 ∧
        3 ≤ t.sla_time ∧ t.sla_time ≤ 9 ∧
        t.priority ∈ ["Low", "Medium", "High"]) :=
  ⟨by decide, claim_C6 2 rngZero (by decide)⟩

set_option maxHeartbeats 1000000 in
/-- C9: the node invariant (load ≥ 0, reliability ∈ [0.70, 0.99], cpu ≥ 1,
bandwidth ≥ 10) holds after generation and is preserved by each of the four
schedulers (for round robin, each node's load moreover only increases). -/
theorem claim_C9 :
    (∀ (n : ℕ) (r : Rng), ∀ nd ∈ (create_nodes n r).1, NodeInv nd) ∧
    (∀ (nodes : List Node) (tasks : List Task),
      nodes ≠ [] → (∀ nd ∈ nodes, NodeInv nd) →
      (∀ t ∈ tasks, 0 < t.workload) →
      (∀ asgs fin, round_robin nodes tasks = some (asgs, fin) →
        (∀ nd ∈ fin, NodeInv nd) ∧
        (∀ (j : ℕ) (nd fnd : Node), nodes[j]? = some nd →
          fin[j]? = some fnd → nd.load ≤ fnd.load)) ∧
      (∀ asgs fin, shortest_job_first nodes tasks = some (asgs, fin) →
        ∀ nd ∈ fin, NodeInv nd) ∧
      (∀ asgs fin, economic nodes tasks = some (asgs, fin) →
        ∀ nd ∈ fin, NodeInv nd) ∧
      (∀ (r : Rng) asgs fin r2,
        predictive_qos nodes tasks r = (some (asgs, fin), r2) →
        ∀ nd ∈ fin, NodeInv nd)) := by
  have hmk7 : (mkRat 7 10 : ℚ) = 7/10 := by rw [Rat.mkRat_eq_div]; norm_num
  have hmk99 : (mkRat 99 100 : ℚ) = 99/100 := by
    rw [Rat.mkRat_eq_div]; norm_num
  constructor
  · intro n r nd hnd
    obtain ⟨j, r', _, he⟩ := create_nodes_go_mem 0 n r nd hnd
    obtain ⟨h1, _, _, _, h5, _, h7, h8, _, _, h11⟩ :=
      create_node_ranges (0 + j) r'
    rw [← he] at h1 h5 h7 h8 h11
    refine ⟨by rw [h11], ?_, ?_, by linarith, by linarith⟩
    · rw [hmk7]; linarith
    · rw [hmk99]; linarith
  · intro nodes tasks hne hinv hw
    have hw' : ∀ t ∈ tasks, 0 ≤ t.workload :=
      fun t ht => le_of_lt (hw t ht)
    refine ⟨?_, ?_, ?_, ?_⟩
    · intro asgs fin heq
      constructor
      · exact cycleGo_inv nodes tasks hne hinv hw' asgs fin heq
      · intro j nd fnd hj hjf
        obtain ⟨fin0, hgo, hchar⟩ := cycleGo_spec tasks 0 nodes hne
        have heq' : cycleGo 0 nodes tasks = some (asgs, fin) := heq
        rw [heq'] at hgo
        have hfin : fin = fin0 := congrArg Prod.snd (Option.some.inj hgo)
        subst hfin
        rw [hchar j, hj] at hjf
        simp only [Option.map_some'] at hjf
        have : fnd = { nd with
            load := nd.load + assignedSum 0 nodes.length j tasks } :=
          (Option.some.inj hjf).symm
        rw [this]
        have := assignedSum_nonneg 0 nodes.length j tasks hw'
        show nd.load ≤ nd.load + _
        linarith
    · intro asgs fin heq
      have heq2 : cycleGo 0 (pySorted (fun n => n.load) nodes)
          (pySorted (fun t => t.workload) tasks) = some (asgs, fin) := heq
      refine cycleGo_inv (pySorted (fun n => n.load) nodes)
        (pySorted (fun t => t.workload) tasks)
        (pySorted_ne_nil _ _ hne) ?_ ?_ asgs fin heq2
      · intro nd hnd
        exact hinv nd ((pySorted_perm (fun n => n.load) nodes).subset hnd)
      · intro t ht
        exact hw' t ((pySorted_perm (fun t => t.workload) tasks).subset ht)
    · intro asgs fin heq
      have heq2 : cycleGo 0 (pySorted (fun n => n.cost) nodes) tasks =
          some (asgs, fin) := heq
      refine cycleGo_inv (pySorted (fun n => n.cost) nodes) tasks
        (pySorted_ne_nil _ _ hne) ?_ hw' asgs fin heq2
      intro nd hnd
      exact hinv nd ((pySorted_perm (fun n => n.cost) nodes).subset hnd)
    · intro r asgs fin r2 heq
      exact predictive_qos_inv tasks nodes r hne hinv hw' asgs fin r2 heq

theorem claim_C9_witness :
    ([exNode "A" 1 0] ≠ [] ∧ (∀ nd ∈ [exNode "A" 1 0], NodeInv nd) ∧
      (∀ t ∈ [exTask "T1" 5 5], 0 < t.workload)) ∧
    ((∀ asgs fin,
        round_robin [exNode "A" 1 0] [exTask "T1" 5 5] = some (asgs, fin) →
        (∀ nd ∈ fin, NodeInv nd) ∧
        (∀ (j : ℕ) (nd fnd : Node), ([exNode "A" 1 0])[j]? = some nd →
          fin[j]? = some fnd → nd.load ≤ fnd.load)) ∧
      (∀ asgs fin, shortest_job_first [exNode "A" 1 0] [exTask "T1" 5 5] =
          some (asgs, fin) → ∀ nd ∈ fin, NodeInv nd) ∧
      (∀ asgs fin, economic [exNode "A" 1 0] [exTask "T1" 5 5] =
          some (asgs, fin) → ∀ nd ∈ fin, NodeInv nd) ∧
      (∀ (r : Rng) asgs fin r2,
        predictive_qos [exNode "A" 1 0] [exTask "T1" 5 5] r =
          (some (asgs, fin), r2) → ∀ nd ∈ fin, NodeInv nd)) :=
  ⟨⟨by decide, by decide, by decide⟩,
    claim_C9.2 [exNode "A" 1 0] [exTask "T1" 5 5]
      (by decide) (by decide) (by decide)⟩

set_option maxHeartbeats 1000000 in
/-- C1: for every non-empty node pool and non-empty task list (with distinct
task ids, as generated), each of the four strategies succeeds, every input
task id appears exactly once among the produced assignments, and every node
id referenced is the id of some input node. -/
theorem claim_C1 (nodes : List Node) (tasks : List Task) (r : Rng)
    (hn : nodes ≠ []) (ht : tasks ≠ [])
    (hids : (tasks.map Task.id).Nodup) :
    (∃ asgs fin, round_robin nodes tasks = some (asgs, fin) ∧
      (∀ tid ∈ tasks.map Task.id, (asgs.map Prod.fst).count tid = 1) ∧
      (∀ p ∈ asgs, p.2 ∈ nodes.map Node.id)) ∧
    (∃ asgs fin, shortest_job_first nodes tasks = some (asgs, fin) ∧
      (∀ tid ∈ tasks.map Task.id, (asgs.map Prod.fst).count tid = 1) ∧
      (∀ p ∈ asgs, p.2 ∈ nodes.map Node.id)) ∧
    (∃ asgs fin, economic nodes tasks = some (asgs, fin) ∧
      (∀ tid ∈ tasks.map Task.id, (asgs.map Prod.fst).count tid = 1) ∧
      (∀ p ∈ asgs, p.2 ∈ nodes.map Node.id)) ∧
    (∃ asgs fin r2, predictive_qos nodes tasks r = (some (asgs, fin), r2) ∧
      (∀ tid ∈ tasks.map Task.id, (asgs.map Prod.fst).count tid = 1) ∧
      (∀ p ∈ asgs, p.2 ∈ nodes.map Node.id)) := by
  have hidsne : nodes.map Node.id ≠ [] :=
    fun hc => hn (List.map_eq_nil_iff.mp hc)
  refine ⟨?_, ?_, ?_, ?_⟩
  · obtain ⟨fin, hgo, _⟩ := cycleGo_spec tasks 0 nodes hn
    refine ⟨_, fin, hgo, ?_, ?_⟩
    · intro tid htid
      rw [cycleAsgs_map_fst]
      exact List.count_eq_one_of_mem hids htid
    · exact cycleAsgs_snd_mem (nodes.map Node.id) hidsne 0 tasks
  · obtain ⟨fin, hgo, _⟩ := cycleGo_spec (pySorted (fun t => t.workload) tasks)
      0 (pySorted (fun n => n.load) nodes) (pySorted_ne_nil _ _ hn)
    have hgo2 : shortest_job_first nodes tasks =
        some (cycleAsgs ((pySorted (fun n => n.load) nodes).map Node.id) 0
          (pySorted (fun t => t.workload) tasks), fin) := hgo
    refine ⟨_, fin, hgo2, ?_, ?_⟩
    · intro tid htid
      rw [cycleAsgs_map_fst]
      have hperm : ((pySorted (fun t => t.workload) tasks).map Task.id).Perm
          (tasks.map Task.id) :=
        (pySorted_perm (fun t => t.workload) tasks).map Task.id
      rw [hperm.count_eq]
      exact List.count_eq_one_of_mem hids htid
    · intro p hp
      have hne' : (pySorted (fun n => n.load) nodes).map Node.id ≠ [] :=
        fun hc => (pySorted_ne_nil (fun n => n.load) nodes hn)
          (List.map_eq_nil_iff.mp hc)
      have := cycleAsgs_snd_mem _ hne' 0
        (pySorted (fun t => t.workload) tasks) p hp
      exact ((pySorted_perm (fun n => n.load) nodes).map Node.id).subset this
  · obtain ⟨fin, hgo, _⟩ := cycleGo_spec tasks 0
      (pySorted (fun n => n.cost) nodes) (pySorted_ne_nil _ _ hn)
    have hgo2 : economic nodes tasks =
        some (cycleAsgs ((pySorted (fun n => n.cost) nodes).map Node.id) 0
          tasks, fin) := hgo
    refine ⟨_, fin, hgo2, ?_, ?_⟩
    · intro tid htid
      rw [cycleAsgs_map_fst]
      exact List.count_eq_one_of_mem hids htid
    · intro p hp
      have hne' : (pySorted (fun n => n.cost) nodes).map Node.id ≠ [] :=
        fun hc => (pySorted_ne_nil (fun n => n.cost) nodes hn)
          (List.map_eq_nil_iff.mp hc)
      have := cycleAsgs_snd_mem _ hne' 0 tasks p hp
      exact ((pySorted_perm (fun n => n.cost) nodes).map Node.id).subset this
  · obtain ⟨asgs, fin, r2, hrun, hfst, hsnd, _⟩ :=
      predictive_qos_run tasks nodes r hn
    refine ⟨asgs, fin, r2, hrun, ?_, hsnd⟩
    intro tid htid
    rw [hfst]
    exact List.count_eq_one_of_mem hids htid

theorem claim_C1_witness :
    ([exNode "A" 1 0] ≠ [] ∧ [exTask "T1" 5 5] ≠ [] ∧
      (([exTask "T1" 5 5].map Task.id).Nodup)) ∧
    ((∃ asgs fin, round_robin [exNode "A" 1 0] [exTask "T1" 5 5] =
        some (asgs, fin) ∧
      (∀ tid ∈ [exTask "T1" 5 5].map Task.id,
        (asgs.map Prod.fst).count tid = 1) ∧
      (∀ p ∈ asgs, p.2 ∈ [exNode "A" 1 0].map Node.id)) ∧
    (∃ asgs fin, shortest_job_first [exNode "A" 1 0] [exTask "T1" 5 5] =
        some (asgs, fin) ∧
      (∀ tid ∈ [exTask "T1" 5 5].map Task.id,
        (asgs.map Prod.fst).count tid = 1) ∧
      (∀ p ∈ asgs, p.2 ∈ [exNode "A" 1 0].map Node.id)) ∧
    (∃ asgs fin, economic [exNode "A" 1 0] [exTask "T1" 5 5] =
        some (asgs, fin) ∧
      (∀ tid ∈ [exTask "T1" 5 5].map Task.id,
        (asgs.map Prod.fst).count tid = 1) ∧
      (∀ p ∈ asgs, p.2 ∈ [exNode "A" 1 0].map Node.id)) ∧
    (∃ asgs fin r2, predictive_qos [exNode "A" 1 0] [exTask "T1" 5 5] rngZero
        = (some (asgs, fin), r2) ∧
      (∀ tid ∈ [exTask "T1" 5 5].map Task.id,
        (asgs.map Prod.fst).count tid = 1) ∧
      (∀ p ∈ asgs, p.2 ∈ [exNode "A" 1 0].map Node.id))) :=
  ⟨⟨by decide, by decide, by decide⟩,
    claim_C1 [exNode "A" 1 0] [exTask "T1" 5 5] rngZero
      (by decide) (by decide) (by decide)⟩

/-- C2: round robin assigns the task at 0-based position `i` to the node at
index `i % k` of the input pool (recording that node's id), accumulates each
task's workload onto the load of exactly that node, and its assignment list
depends only on the node ids (not on any other node attribute). -/
theorem claim_C2 (nodes : List Node) (tasks : List Task) (hn : nodes ≠ []) :
    ∃ asgs fin, round_robin nodes tasks = some (asgs, fin) ∧
      (∀ i : ℕ, i < tasks.length → ∃ t nd, tasks[i]? = some t ∧
        nodes[i % nodes.length]? = some nd ∧ asgs[i]? = some (t.id, nd.id)) ∧
      (∀ j : ℕ, fin[j]? = (nodes[j]?).map (fun nd : Node =>
        { nd with load := nd.load + assignedSum 0 nodes.length j tasks })) ∧
      (∀ nodes' : List Node, nodes'.map Node.id = nodes.map Node.id →
        ∃ fin', round_robin nodes' tasks = some (asgs, fin')) := by
  obtain ⟨fin, hgo, hloads⟩ := cycleGo_spec tasks 0 nodes hn
  refine ⟨_, fin, hgo, ?_, hloads, ?_⟩
  · intro i hi
    have hlen : 0 < nodes.length := List.length_pos.mpr hn
    have hidx : i % nodes.length < nodes.length := Nat.mod_lt _ hlen
    refine ⟨tasks[i], nodes[i % nodes.length],
      List.getElem?_eq_getElem hi, List.getElem?_eq_getElem hidx, ?_⟩
    rw [cycleAsgs_getElem?, List.getElem?_eq_getElem hi]
    simp only [Option.map_some']
    have := map_id_getD nodes (i % nodes.length) nodes[i % nodes.length]
      (List.getElem?_eq_getElem hidx)
    rw [List.length_map, Nat.zero_add] at *
    rw [this]
  · intro nodes' hid
    have hn' : nodes' ≠ [] := by
      intro hc
      rw [hc] at hid
      exact hn (List.map_eq_nil_iff.mp hid.symm)
    obtain ⟨fin', hgo', _⟩ := cycleGo_spec tasks 0 nodes' hn'
    rw [hid] at hgo'
    exact ⟨fin', hgo'⟩

theorem claim_C2_witness :
    [exNode "A" 1 0] ≠ [] ∧
    (∃ asgs fin, round_robin [exNode "A" 1 0] [exTask "T1" 5 5] =
        some (asgs, fin) ∧
      (∀ i : ℕ, i < [exTask "T1" 5 5].length → ∃ t nd,
        ([exTask "T1" 5 5])[i]? = some t ∧
        ([exNode "A" 1 0])[i % ([exNode "A" 1 0] : List Node).length]? =
          some nd ∧
        asgs[i]? = some (t.id, nd.id)) ∧
      (∀ j : ℕ, fin[j]? = (([exNode "A" 1 0] : List Node)[j]?).map
        (fun nd : Node => { nd with load := nd.load + assignedSum 0 ([exNode "A" 1 0] : List Node).length j [exTask "T1" 5 5] })) ∧
      (∀ nodes' : List Node,
        nodes'.map Node.id = [exNode "A" 1 0].map Node.id →
        ∃ fin', round_robin nodes' [exTask "T1" 5 5] = some (asgs, fin'))) :=
  ⟨by decide, claim_C2 [exNode "A" 1 0] [exTask "T1" 5 5] (by decide)⟩

set_option maxHeartbeats 1000000 in
/-- C3: shortest-job-first stably sorts a copy of the tasks by ascending
workload and a copy of the nodes by ascending load at entry, assigns sorted
task `i` to sorted node `i % len(nodes)` and accumulates its workload there;
the node chosen for sorted position `i` is determined by the entry-time
sort alone (never re-sorted after loads change). -/
theorem claim_C3 (nodes : List Node) (tasks : List Task) (hn : nodes ≠ []) :
    ((pySorted (fun t => t.workload) tasks).Perm tasks ∧
      (pySorted (fun t => t.workload) tasks).Pairwise
        (fun a b => a.workload ≤ b.workload) ∧
      (∀ q : ℚ, (pySorted (fun t => t.workload) tasks).filter
          (fun t => decide (t.workload = q)) =
        tasks.filter (fun t => decide (t.workload = q)))) ∧
    ((pySorted (fun n => n.load) nodes).Perm nodes ∧
      (pySorted (fun n => n.load) nodes).Pairwise
        (fun a b => a.load ≤ b.load) ∧
      (∀ q : ℚ, (pySorted (fun n => n.load) nodes).filter
          (fun n => decide (n.load = q)) =
        nodes.filter (fun n => decide (n.load = q)))) ∧
    ∃ asgs fin, shortest_job_first nodes tasks = some (asgs, fin) ∧
      (∀ i : ℕ, i < tasks.length → ∃ t nd,
        (pySorted (fun t => t.workload) tasks)[i]? = some t ∧
        (pySorted (fun n => n.load) nodes)[i % nodes.length]? = some nd ∧
        asgs[i]? = some (t.id, nd.id)) ∧
      (∀ j : ℕ, fin[j]? = ((pySorted (fun n => n.load) nodes)[j]?).map
        (fun nd : Node => { nd with load := nd.load + assignedSum 0 nodes.length j (pySorted (fun t => t.workload) tasks) })) := by
  refine ⟨⟨pySorted_perm _ tasks, pySorted_sorted _ tasks,
      fun q => pySorted_stable _ tasks q⟩,
    ⟨pySorted_perm _ nodes, pySorted_sorted _ nodes,
      fun q => pySorted_stable _ nodes q⟩, ?_⟩
  obtain ⟨fin, hgo, hloads⟩ :=
    cycleGo_spec (pySorted (fun t => t.workload) tasks) 0
      (pySorted (fun n => n.load) nodes) (pySorted_ne_nil _ _ hn)
  have hlen : (pySorted (fun n => n.load) nodes).length = nodes.length :=
    pySorted_length _ _
  have hgo2 : shortest_job_first nodes tasks =
      some (cycleAsgs ((pySorted (fun n => n.load) nodes).map Node.id) 0
        (pySorted (fun t => t.workload) tasks), fin) := hgo
  refine ⟨_, fin, hgo2, ?_, ?_⟩
  · intro i hi
    have hi' : i < (pySorted (fun t => t.workload) tasks).length := by
      rw [pySorted_length]
      exact hi
    have hidx : i % nodes.length <
        (pySorted (fun n => n.load) nodes).length := by
      rw [hlen]
      exact Nat.mod_lt _ (List.length_pos.mpr hn)
    refine ⟨_, _, List.getElem?_eq_getElem hi',
      List.getElem?_eq_getElem hidx, ?_⟩
    rw [cycleAsgs_getElem?, List.getElem?_eq_getElem hi']
    simp only [Option.map_some']
    have hgd := map_id_getD (pySorted (fun n => n.load) nodes)
      (i % nodes.length) _ (List.getElem?_eq_getElem hidx)
    rw [List.length_map, hlen, Nat.zero_add, hgd]
  · intro j
    have := hloads j
    rw [hlen] at this
    exact this

theorem claim_C3_witness :
    [exNode "A" 1 0] ≠ [] ∧
    (((pySorted (fun t => t.workload) [exTask "T1" 5 5]).Perm
        [exTask "T1" 5 5] ∧
      (pySorted (fun t => t.workload) [exTask "T1" 5 5]).Pairwise
        (fun a b => a.workload ≤ b.workload) ∧
      (∀ q : ℚ, (pySorted (fun t => t.workload) [exTask "T1" 5 5]).filter
          (fun t => decide (t.workload = q)) =
        [exTask "T1" 5 5].filter (fun t => decide (t.workload = q)))) ∧
    ((pySorted (fun n => n.load) [exNode "A" 1 0]).Perm [exNode "A" 1 0] ∧
      (pySorted (fun n => n.load) [exNode "A" 1 0]).Pairwise
        (fun a b => a.load ≤ b.load) ∧
      (∀ q : ℚ, (pySorted (fun n => n.load) [exNode "A" 1 0]).filter
          (fun n => decide (n.load = q)) =
        [exNode "A" 1 0].filter (fun n => decide (n.load = q)))) ∧
    ∃ asgs fin, shortest_job_first [exNode "A" 1 0] [exTask "T1" 5 5] =
        some (asgs, fin) ∧
      (∀ i : ℕ, i < [exTask "T1" 5 5].length → ∃ t nd,
        (pySorted (fun t => t.workload) [exTask "T1" 5 5])[i]? = some t ∧
        (pySorted (fun n => n.load)
          [exNode "A" 1 0])[i % ([exNode "A" 1 0] : List Node).length]? =
            some nd ∧
        asgs[i]? = some (t.id, nd.id)) ∧
      (∀ j : ℕ, fin[j]? = ((pySorted (fun n => n.load)
          [exNode "A" 1 0])[j]?).map
        (fun nd : Node => { nd with load := nd.load + assignedSum 0 ([exNode "A" 1 0] : List Node).length j (pySorted (fun t => t.workload) [exTask "T1" 5 5]) }))) :=
  ⟨by decide, claim_C3 [exNode "A" 1 0] [exTask "T1" 5 5] (by decide)⟩

set_option maxHeartbeats 1000000 in
/-- C4: the economic strategy sorts a copy of the nodes by ascending cost and
assigns task `i` (original task order) to sorted node `i % len(nodes)`,
accumulating load there; on the pool with costs [3.0, 0.5, 1.5] the cost-0.5
node gets task 0, the cost-1.5 node task 1, the cost-3.0 node task 2, then
the cycle repeats. -/
theorem claim_C4 (nodes : List Node) (tasks : List Task) (hn : nodes ≠ []) :
    ((pySorted (fun n => n.cost) nodes).Perm nodes ∧
      (pySorted (fun n => n.cost) nodes).Pairwise
        (fun a b => a.cost ≤ b.cost)) ∧
    (∃ asgs fin, economic nodes tasks = some (asgs, fin) ∧
      (∀ i : ℕ, i < tasks.length → ∃ t nd, tasks[i]? = some t ∧
        (pySorted (fun n => n.cost) nodes)[i % nodes.length]? = some nd ∧
        asgs[i]? = some (t.id, nd.id)) ∧
      (∀ j : ℕ, fin[j]? = ((pySorted (fun n => n.cost) nodes)[j]?).map
        (fun nd : Node => { nd with load := nd.load + assignedSum 0 nodes.length j tasks }))) ∧
    (economic ecoNodes ecoTasks).map (fun p => p.1) =
      some [("T1", "N2"), ("T2", "N3"), ("T3", "N1"), ("T4", "N2"),
        ("T5", "N3")] := by
  refine ⟨⟨pySorted_perm _ nodes, pySorted_sorted _ nodes⟩, ?_, ?_⟩
  · obtain ⟨fin, hgo, hloads⟩ := cycleGo_spec tasks 0
      (pySorted (fun n => n.cost) nodes) (pySorted_ne_nil _ _ hn)
    have hlen : (pySorted (fun n => n.cost) nodes).length = nodes.length :=
      pySorted_length _ _
    have hgo2 : economic nodes tasks =
        some (cycleAsgs ((pySorted (fun n => n.cost) nodes).map Node.id) 0
          tasks, fin) := hgo
    refine ⟨_, fin, hgo2, ?_, ?_⟩
    · intro i hi
      have hidx : i % nodes.length <
          (pySorted (fun n => n.cost) nodes).length := by
        rw [hlen]
        exact Nat.mod_lt _ (List.length_pos.mpr hn)
      refine ⟨_, _, List.getElem?_eq_getElem hi,
        List.getElem?_eq_getElem hidx, ?_⟩
      rw [cycleAsgs_getElem?, List.getElem?_eq_getElem hi]
      simp only [Option.map_some']
      have hgd := map_id_getD (pySorted (fun n => n.cost) nodes)
        (i % nodes.length) _ (List.getElem?_eq_getElem hidx)
      rw [List.length_map, hlen, Nat.zero_add, hgd]
    · intro j
      have := hloads j
      rw [hlen] at this
      exact this
  · obtain ⟨finE, hgoE, _⟩ := cycleGo_spec ecoTasks 0
      (pySorted (fun n => n.cost) ecoNodes)
      (pySorted_ne_nil _ _ (by simp [ecoNodes]))
    have hgoE2 : economic ecoNodes ecoTasks =
        some (cycleAsgs ((pySorted (fun n => n.cost) ecoNodes).map Node.id) 0
          ecoTasks, finE) := hgoE
    rw [hgoE2]
    have hsort : (pySorted (fun n => n.cost) ecoNodes).map Node.id =
        ["N2", "N3", "N1"] := by
      norm_num [pySorted, ecoNodes, exNode, keyLex, List.enum,
        List.enumFrom, List.mergeSort, List.merge]
    rw [hsort]
    rfl

theorem claim_C4_witness :
    ecoNodes ≠ [] ∧
    (((pySorted (fun n => n.cost) ecoNodes).Perm ecoNodes ∧
      (pySorted (fun n => n.cost) ecoNodes).Pairwise
        (fun a b => a.cost ≤ b.cost)) ∧
    (∃ asgs fin, economic ecoNodes ecoTasks = some (asgs, fin) ∧
      (∀ i : ℕ, i < ecoTasks.length → ∃ t nd, ecoTasks[i]? = some t ∧
        (pySorted (fun n => n.cost) ecoNodes)[i % ecoNodes.length]? =
          some nd ∧
        asgs[i]? = some (t.id, nd.id)) ∧
      (∀ j : ℕ, fin[j]? = ((pySorted (fun n => n.cost) ecoNodes)[j]?).map
        (fun nd : Node => { nd with load := nd.load + assignedSum 0 ecoNodes.length j ecoTasks }))) ∧
    (economic ecoNodes ecoTasks).map (fun p => p.1) =
      some [("T1", "N2"), ("T2", "N3"), ("T3", "N1"), ("T4", "N2"),
        ("T5", "N3")]) :=
  ⟨by decide, claim_C4 ecoNodes ecoTasks (by decide)⟩

set_option maxHeartbeats 1000000 in
/-- C5: the predictive strategy processes tasks in original order; for each
task it first perturbs every node's cpu by a delta in {-1,0,1} clamped to at
least 1, bandwidth by a delta in {-10,0,10} clamped to at least 10, and
reliability by a delta in {-0.01,0,0.01} clamped to [0.70,0.99]; it then
assigns the task to the node maximising `bandwidth * reliability - load`
(ties to the earliest node in the current node order) and adds the task's
workload to that node's load. -/
theorem claim_C5 (nodes : List Node) (t : Task) (ts : List Task) (r : Rng)
    (hn : nodes ≠ []) :
    ∃ ns r', perturbAll nodes r = (ns, r') ∧
      ns.length = nodes.length ∧
      (∀ i : ℕ, i < nodes.length → ∃ nd0 d1 d2 d3,
        nodes[i]? = some nd0 ∧ d1 ∈ [(-1 : ℚ), 0, 1] ∧
        d2 ∈ [(-10 : ℚ), 0, 10] ∧ d3 ∈ [(-1/100 : ℚ), 0, 1/100] ∧
        ns[i]? = some { nd0 with cpu := max 1 (nd0.cpu + d1), bandwidth := max 10 (nd0.bandwidth + d2), reliability := max (7/10) (min (99/100) (nd0.reliability + d3)) }) ∧
      (∃ j nd ns2, ns[j]? = some nd ∧
        predictive_step nodes t r = (some (ns2, (t.id, nd.id)), r') ∧
        ns2[j]? = some { nd with load := nd.load + t.workload } ∧
        (∀ i : ℕ, i ≠ j → ns2[i]? = ns[i]?) ∧
        (∀ (i : ℕ) (m : Node), ns[i]? = some m → qosScore m ≤ qosScore nd) ∧
        (∀ (i : ℕ) (m : Node), ns[i]? = some m → qosScore m = qosScore nd →
          j ≤ i)) ∧
      (∀ asgs fin r2, predictive_qos nodes (t :: ts) r =
        (some (asgs, fin), r2) →
        asgs.map Prod.fst = (t :: ts).map Task.id) := by
  obtain ⟨j, nd, hget, hstep, hmax, htie⟩ := predictive_step_spec nodes t r hn
  refine ⟨(perturbAll nodes r).1, (perturbAll nodes r).2, rfl,
    perturbAll_length nodes r, ?_, ?_, ?_⟩
  · intro i hi
    obtain ⟨rr, hrr⟩ := perturbAll_getElem? nodes r i
    obtain ⟨d1, d2, d3, hd1, hd2, hd3, hshape⟩ :=
      perturbNode_shape nodes[i] rr
    refine ⟨nodes[i], d1, d2, d3, List.getElem?_eq_getElem hi,
      hd1, hd2, hd3, ?_⟩
    rw [hrr, List.getElem?_eq_getElem hi]
    simp only [Option.map_some']
    rw [hshape]
  · refine ⟨j, nd,
      modifyAt j (fun n => { n with load := n.load + t.workload })
        (perturbAll nodes r).1, hget, hstep, ?_, ?_, hmax, htie⟩
    · rw [modifyAt_getElem?, if_pos rfl, hget]
      rfl
    · intro i hij
      rw [modifyAt_getElem?, if_neg hij]
  · intro asgs fin r2 heq
    obtain ⟨asgs0, fin0, r20, hrun0, hfst0, _, _⟩ :=
      predictive_qos_run (t :: ts) nodes r hn
    rw [heq] at hrun0
    have h1 : (some (asgs, fin) :
        Option (List (String × String) × List Node)) = some (asgs0, fin0) :=
      congrArg Prod.fst hrun0
    have h2 : asgs = asgs0 :=
      congrArg Prod.fst (Option.some.inj h1)
    rw [h2]
    exact hfst0

theorem claim_C5_witness :
    [exNode "A" 1 0] ≠ [] ∧
    (∃ ns r', perturbAll [exNode "A" 1 0] rngZero = (ns, r') ∧
      ns.length = ([exNode "A" 1 0] : List Node).length ∧
      (∀ i : ℕ, i < ([exNode "A" 1 0] : List Node).length →
        ∃ nd0 d1 d2 d3,
        ([exNode "A" 1 0] : List Node)[i]? = some nd0 ∧
        d1 ∈ [(-1 : ℚ), 0, 1] ∧
        d2 ∈ [(-10 : ℚ), 0, 10] ∧ d3 ∈ [(-1/100 : ℚ), 0, 1/100] ∧
        ns[i]? = some { nd0 with cpu := max 1 (nd0.cpu + d1), bandwidth := max 10 (nd0.bandwidth + d2), reliability := max (7/10) (min (99/100) (nd0.reliability + d3)) }) ∧
      (∃ j nd ns2, ns[j]? = some nd ∧
        predictive_step [exNode "A" 1 0] (exTask "T1" 5 5) rngZero =
          (some (ns2, ((exTask "T1" 5 5).id, nd.id)), r') ∧
        ns2[j]? = some { nd with load := nd.load + (exTask "T1" 5 5).workload } ∧
        (∀ i : ℕ, i ≠ j → ns2[i]? = ns[i]?) ∧
        (∀ (i : ℕ) (m : Node), ns[i]? = some m → qosScore m ≤ qosScore nd) ∧
        (∀ (i : ℕ) (m : Node), ns[i]? = some m → qosScore m = qosScore nd →
          j ≤ i)) ∧
      (∀ asgs fin r2,
        predictive_qos [exNode "A" 1 0] (exTask "T1" 5 5 :: []) rngZero =
          (some (asgs, fin), r2) →
        asgs.map Prod.fst = (exTask "T1" 5 5 :: []).map Task.id)) :=
  ⟨by decide,
    claim_C5 [exNode "A" 1 0] (exTask "T1" 5 5) [] rngZero (by decide)⟩

/-- C7: for every record the evaluator produces, the stored throughput is
`round(bandwidth/(workload+1), 2)`, the stored exec time is
`round(workload/cpu, 2)` and the SLA flag compares the exact quotient
`workload/cpu` with the SLA time; on the node with bandwidth 100,
reliability 0.9, cpu 5 and the task with workload 5, SLA time 2, the exec
time is `5/5 = 1.0`, the SLA is met, and the throughput is
`round(100/6, 2) = 16.67`. -/
theorem claim_C7 :
    (∀ (asgs : List (String × String)) (tasks : List Task)
        (nodes : List Node) (r : Rng),
      (((evaluate asgs tasks nodes r).1).getD []).all (recCheck tasks nodes)
        = true) ∧
    (∀ r : Rng, ∃ rec r2,
      evaluate [("Task-1", "Node-1")] [evalTask] [evalNode] r =
        (some [rec], r2) ∧
      rec.exec_time = 1 ∧ rec.sla_met = true ∧
      rec.throughput = 1667/100) := by
  refine ⟨evaluate_all_recCheck, ?_⟩
  intro r
  refine ⟨evalRecordOf "Task-1" "Node-1" evalTask evalNode
      (uniformQ (1/10) (3/2) r).1, (uniformQ (1/10) (3/2) r).2,
    evaluate_single "Task-1" "Node-1" evalTask evalNode r rfl rfl,
    ?_, ?_, ?_⟩
  · show round2 (evalTask.workload / evalNode.cpu) = 1
    have h1 : (evalTask.workload / evalNode.cpu : ℚ) = 1 := by
      norm_num [evalTask, evalNode]
    rw [h1]
    have hf : ⌊((1 : ℚ) * 100)⌋ = (100 : ℤ) := by
      rw [Int.floor_eq_iff]
      norm_num
    have := round2_concrete 1 100 hf (by push_cast; norm_num)
    rw [this]
    norm_num
  · show decide (evalTask.workload / evalNode.cpu ≤ evalTask.sla_time) = true
    simp only [decide_eq_true_eq]
    norm_num [evalTask, evalNode]
  · show round2 (evalNode.bandwidth / (evalTask.workload + 1)) = 1667/100
    have h1 : (evalNode.bandwidth / (evalTask.workload + 1) : ℚ) = 50/3 := by
      norm_num [evalTask, evalNode]
    rw [h1]
    have hf : ⌊((50 : ℚ)/3 * 100)⌋ = (1666 : ℤ) := by
      rw [Int.floor_eq_iff]
      norm_num
    have := round2_concrete_up (50/3) 1666 hf (by push_cast; norm_num)
    rw [this]
    norm_num

/-- C10: the SLA flag is computed from the exact, unrounded quotient
`workload/cpu`, while the record stores `round(workload/cpu, 2)`; on cpu 250,
workload 501, SLA time 2, the unrounded exec time `2.004` misses the SLA
(flag false) although the stored, rounded exec time `2.0` is within it. -/
theorem claim_C10 :
    (∀ (asgs : List (String × String)) (tasks : List Task)
        (nodes : List Node) (r : Rng),
      (((evaluate asgs tasks nodes r).1).getD []).all (slaCheck tasks nodes)
        = true) ∧
    (∀ r : Rng, ∃ rec r2,
      evaluate [("Task-1", "Node-1")] [slaTask] [slaNode] r =
        (some [rec], r2) ∧
      rec.sla_met = false ∧ rec.exec_time = 2 ∧
      rec.exec_time ≤ rec.sla_time ∧
      ¬ (slaTask.workload / slaNode.cpu ≤ slaTask.sla_time)) := by
  refine ⟨evaluate_all_slaCheck, ?_⟩
  intro r
  refine ⟨evalRecordOf "Task-1" "Node-1" slaTask slaNode
      (uniformQ (1/10) (3/2) r).1, (uniformQ (1/10) (3/2) r).2,
    evaluate_single "Task-1" "Node-1" slaTask slaNode r rfl rfl,
    ?_, ?_, ?_, ?_⟩
  · show decide (slaTask.workload / slaNode.cpu ≤ slaTask.sla_time) = false
    simp only [decide_eq_false_iff_not]
    norm_num [slaTask, slaNode]
  · show round2 (slaTask.workload / slaNode.cpu) = 2
    have h1 : (slaTask.workload / slaNode.cpu : ℚ) = 501/250 := by
      norm_num [slaTask, slaNode]
    rw [h1]
    have hf : ⌊((501 : ℚ)/250 * 100)⌋ = (200 : ℤ) := by
      rw [Int.floor_eq_iff]
      norm_num
    have := round2_concrete (501/250) 200 hf (by push_cast; norm_num)
    rw [this]
    norm_num
  · show round2 (slaTask.workload / slaNode.cpu) ≤ slaTask.sla_time
    have h1 : (slaTask.workload / slaNode.cpu : ℚ) = 501/250 := by
      norm_num [slaTask, slaNode]
    rw [h1]
    have hf : ⌊((501 : ℚ)/250 * 100)⌋ = (200 : ℤ) := by
      rw [Int.floor_eq_iff]
      norm_num
    have := round2_concrete (501/250) 200 hf (by push_cast; norm_num)
    rw [this]
    norm_num [slaTask]
  · norm_num [slaTask, slaNode]

/-- C8 counterexample: on an empty record sequence the aggregation of
src/app.py lines 147-150 fails with Python's `ZeroDivisionError` (an
unguarded division by `len(results)`), not with the `EmptyResultError` the
claim asserts. -/
theorem claim_C8_counterexample :
    aggregate [] ≠ Except.error AggError.emptyResult ∧
    aggregate [] = Except.error AggError.zeroDivision :=
  ⟨by
    rw [aggregate_nil]
    intro hc
    exact AggError.noConfusion (Except.error.inj hc), rfl⟩

/-- C8 (amended): on an empty record sequence the aggregation performs an
unguarded division by zero (Python `ZeroDivisionError`); no
`EmptyResultError` exists in the code.  For non-empty records it returns
`sla_success_rate = |{sla_met}| / total`, a fraction in [0,1], and
`average_qos` the mean of the QoS scores. -/
theorem claim_C8 :
    aggregate [] = Except.error AggError.zeroDivision ∧
    ∀ recs : List EvalRecord, recs ≠ [] →
      aggregate recs = Except.ok
        ((((recs.filter (fun rec => rec.sla_met)).length : ℚ)) /
            ((recs.length : ℚ)),
          ((recs.map (fun rec => rec.qos_score)).sum) /
            ((recs.length : ℚ))) ∧
      0 ≤ (((recs.filter (fun rec => rec.sla_met)).length : ℚ)) /
          ((recs.length : ℚ)) ∧
      (((recs.filter (fun rec => rec.sla_met)).length : ℚ)) /
          ((recs.length : ℚ)) ≤ 1 := by
  refine ⟨aggregate_nil, ?_⟩
  intro recs h
  exact ⟨aggregate_nonempty recs h, (slaRate_bounds recs h).1,
    (slaRate_bounds recs h).2⟩

theorem claim_C8_witness :
    [exRecord] ≠ [] ∧
    (aggregate [exRecord] = Except.ok
        (((((List.filter (fun rec => rec.sla_met) [exRecord]).length : ℚ)) /
            ((([exRecord] : List EvalRecord).length : ℚ))),
          ((List.map (fun rec => rec.qos_score) [exRecord]).sum) /
            ((([exRecord] : List EvalRecord).length : ℚ))) ∧
      0 ≤ (((List.filter (fun rec => rec.sla_met) [exRecord]).length : ℚ)) /
          ((([exRecord] : List EvalRecord).length : ℚ)) ∧
      (((List.filter (fun rec => rec.sla_met) [exRecord]).length : ℚ)) /
          ((([exRecord] : List EvalRecord).length : ℚ)) ≤ 1) :=
  ⟨by decide, claim_C8.2 [exRecord] (by decide)⟩

end GridSim
